import Mathlib

/-!
# Verification of the 3D bin-packing solver

A shallow embedding of the solver's core: the geometry model
(`src/problem/item.py`, `src/problem/bin.py`), the placement engine
(`src/utils/placement.py`), the solution model (`src/problem/solution.py`),
the neighborhood operators (`src/algorithms/operators.py`) and the local
search driver (`src/algorithms/local_search.py`).

Python mutates `Item` objects that are shared (aliased) between the
`Solution.all_items` catalogue and the bins' item lists.  We model this by
keeping a single item store (the catalogue, a `List Item`) and letting bins
hold item *ids*; every in-place mutation of an item becomes an update of the
store, so aliasing is captured exactly.  Dimensions and coordinates are
modelled as exact rationals.
-/

set_option maxRecDepth 10000

/- Batteries marks the `Rat` field operations `@[irreducible]`, which blocks
the elaborator from evaluating concrete rational arithmetic inside `decide`.
The model below is executable on concrete inputs, so restore the default
reducibility for this development (kernel checking is unaffected either
way). -/
attribute [local semireducible] Rat.add Rat.mul Rat.sub Rat.inv

namespace BinPacking

/-- State of a Python `Item` object (`src/problem/item.py`).
`position = none` models Python `None` (unplaced); `assigned_bin = none`
models an unassigned item. -/
structure Item where
  id : Nat
  length : ℚ
  width : ℚ
  height : ℚ
  position : Option (ℚ × ℚ × ℚ) := none
  rotation : Nat := 0
  assigned_bin : Option Nat := none
deriving Repr, DecidableEq

/-- `Item.get_volume`: volume from the intrinsic (unrotated) extents. -/
def Item.get_volume (it : Item) : ℚ :=
  it.length * it.width * it.height

/-- `Item.get_dimensions`: the effective extents under the current rotation.
The source indexes a 6-element list with `self.rotation`; `set_rotation`
guarantees `rotation` is in `[0,5]`, so the final catch-all branch
(rotation 5 in the source) is the faithful translation for all reachable
states. -/
def Item.get_dimensions (it : Item) : ℚ × ℚ × ℚ :=
  match it.rotation with
  | 0 => (it.length, it.width, it.height)
  | 1 => (it.length, it.height, it.width)
  | 2 => (it.width, it.length, it.height)
  | 3 => (it.width, it.height, it.length)
  | 4 => (it.height, it.length, it.width)
  | _ => (it.height, it.width, it.length)

/-- `Item.is_placed`. -/
def Item.is_placed (it : Item) : Bool :=
  it.position.isSome

/-- `Item.is_assigned`. -/
def Item.is_assigned (it : Item) : Bool :=
  it.assigned_bin.isSome

/-- `Item.get_bounds`: `((x_min,y_min,z_min),(x_max,y_max,z_max))`, or
`none` when the item is not placed. -/
def Item.get_bounds (it : Item) : Option ((ℚ × ℚ × ℚ) × (ℚ × ℚ × ℚ)) :=
  match it.position with
  | none => none
  | some (x, y, z) =>
    match it.get_dimensions with
    | (l, w, h) => some ((x, y, z), (x + l, y + w, z + h))

/-- `Item.set_rotation`, which raises `ValueError` for a rotation outside
`[0,5]`.  The raise is modelled as `none`; since a Python raise aborts
before mutating the object, the caller's item is unchanged in that case by
construction. -/
def Item.set_rotation (it : Item) (r : Int) : Option Item :=
  if 0 ≤ r ∧ r ≤ 5 then some { it with rotation := r.toNat }
  else none

/-- `Item.set_position`. -/
def Item.set_position (it : Item) (x y z : ℚ) : Item :=
  { it with position := some (x, y, z) }

/-- `Item.reset`: clears placement, rotation and assignment. -/
def Item.reset (it : Item) : Item :=
  { it with position := none, rotation := 0, assigned_bin := none }

/-- `Bin.check_overlap` (`src/problem/bin.py`): true iff both items are
placed and their boxes intersect strictly on all three axes.  The source
method ignores `self`, so it is modelled as a standalone function. -/
def check_overlap (item1 item2 : Item) : Bool :=
  if ¬ item1.is_placed ∨ ¬ item2.is_placed then false
  else
    match item1.get_bounds, item2.get_bounds with
    | some ((x1min, y1min, z1min), (x1max, y1max, z1max)),
      some ((x2min, y2min, z2min), (x2max, y2max, z2max)) =>
        decide ((x1min < x2max ∧ x1max > x2min) ∧
                (y1min < y2max ∧ y1max > y2min) ∧
                (z1min < z2max ∧ z1max > z2min))
    | _, _ => false

/-- State of a Python `Bin` object.  `items` holds the *ids* of the member
items (the objects live in the solution's catalogue); Python's list of
aliased objects is recovered by looking each id up in the store. -/
structure Bin where
  id : Nat
  length : ℚ
  width : ℚ
  height : ℚ
  items : List Nat := []
deriving Repr, DecidableEq

/-- Item-store lookup: the first catalogue entry with the given id.  This is
exactly `Solution.get_item_by_id`, and also resolves a bin's member list
back to the Python objects. -/
def lookup_item (store : List Item) (i : Nat) : Option Item :=
  store.find? (fun it => it.id == i)

/-- Writing a mutated item back to the store: replaces the first entry
carrying the same id (the one `lookup_item` returns). -/
def set_item : List Item → Item → List Item
  | [], _ => []
  | j :: rest, it => if j.id == it.id then it :: rest else j :: set_item rest it

/-- The member objects of a bin, in list order. -/
def Bin.member_items (b : Bin) (store : List Item) : List Item :=
  b.items.filterMap (lookup_item store)

/-- `Bin.get_volume`. -/
def Bin.get_volume (b : Bin) : ℚ :=
  b.length * b.width * b.height

/-- `Bin.get_used_volume`: sum of the member items' volumes. -/
def Bin.get_used_volume (b : Bin) (store : List Item) : ℚ :=
  ((b.member_items store).map Item.get_volume).sum

/-- `Bin.get_volume_utilization` (a percentage). -/
def Bin.get_volume_utilization (b : Bin) (store : List Item) : ℚ :=
  if b.get_volume = 0 then 0 else b.get_used_volume store / b.get_volume * 100

/-- `Bin.is_empty`. -/
def Bin.is_empty (b : Bin) : Bool :=
  b.items.isEmpty

/-- `Bin.add_item`: appends the item (Python membership test is by id) and
assigns it to this bin; both effects are skipped when an item with the same
id is already present.  Returns the updated bin and store. -/
def Bin.add_item (b : Bin) (store : List Item) (it : Item) : Bin × List Item :=
  if b.items.contains it.id then (b, store)
  else ({ b with items := b.items ++ [it.id] },
        set_item store { it with assigned_bin := some b.id })

/-- One step of `Bin.clear`'s loop: reset the item with this id in the
store (a missing id, impossible in the source where the bin holds the
object, leaves the store unchanged). -/
def reset_item_in_store (store : List Item) (i : Nat) : List Item :=
  match lookup_item store i with
  | none => store
  | some it => set_item store it.reset

/-- `Bin.clear`: resets every member item (position, rotation, assignment)
and empties the bin's list. -/
def Bin.clear (b : Bin) (store : List Item) : Bin × List Item :=
  ({ b with items := [] }, b.items.foldl reset_item_in_store store)

/-- `Bin.is_within_bounds`: the placed item's bounds lie inside
`[0,length] × [0,width] × [0,height]`; `false` when unplaced. -/
def Bin.is_within_bounds (b : Bin) (it : Item) : Bool :=
  match it.get_bounds with
  | none => false
  | some ((xmin, ymin, zmin), (xmax, ymax, zmax)) =>
      decide (xmin ≥ 0 ∧ ymin ≥ 0 ∧ zmin ≥ 0 ∧
              xmax ≤ b.length ∧ ymax ≤ b.width ∧ zmax ≤ b.height)

/-- `Bin.has_overlaps`: some pair of member items overlaps. -/
def has_overlaps_list : List Item → Bool
  | [] => false
  | x :: rest => rest.any (fun y => check_overlap x y) || has_overlaps_list rest

/-- `Bin.has_overlaps` over the bin's member objects. -/
def Bin.has_overlaps (b : Bin) (store : List Item) : Bool :=
  has_overlaps_list (b.member_items store)

/-- `Bin.is_feasible`: every member is placed and within bounds, and no two
members overlap. -/
def Bin.is_feasible (b : Bin) (store : List Item) : Bool :=
  (b.member_items store).all (fun it => it.is_placed && b.is_within_bounds it) &&
  ! b.has_overlaps store

/-- `Bin.can_fit_item_at_position`: the source temporarily sets the item's
rotation and position, checks bounds and overlap against all members with a
different id, then restores the item — a pure check on the trial state. -/
def Bin.can_fit_item_at_position (b : Bin) (store : List Item) (it : Item)
    (x y z : ℚ) (rot : Nat) : Bool :=
  let trial : Item := { it with rotation := rot, position := some (x, y, z) }
  b.is_within_bounds trial &&
  ((b.member_items store).filter (fun o => o.id ≠ it.id)).all
    (fun o => ! check_overlap trial o)

/-! ## Placement engine (`src/utils/placement.py`) -/

/-- The sort key used by `generate_corner_points`: candidates are ordered by
`(z, x, y)` ascending (bottom-left-back priority). -/
def corner_key (p : ℚ × ℚ × ℚ) : ℚ ×ₗ (ℚ ×ₗ ℚ) :=
  toLex (p.2.2, toLex (p.1, p.2.1))

/-- Lexicographic comparison of candidate positions by `(z, x, y)`. -/
def corner_le (p q : ℚ × ℚ × ℚ) : Prop :=
  p.2.2 < q.2.2 ∨ (p.2.2 = q.2.2 ∧ (p.1 < q.1 ∨ (p.1 = q.1 ∧ p.2.1 ≤ q.2.1)))

theorem corner_le_iff_key {p q : ℚ × ℚ × ℚ} :
    corner_le p q ↔ corner_key p ≤ corner_key q := by
  unfold corner_le corner_key
  rw [Prod.Lex.le_iff]
  constructor
  · rintro (h | ⟨hz, h⟩)
    · exact Or.inl h
    · refine Or.inr ⟨hz, ?_⟩
      rw [Prod.Lex.le_iff]
      exact h
  · rintro (h | ⟨hz, h⟩)
    · exact Or.inl h
    · rw [Prod.Lex.le_iff] at h
      exact Or.inr ⟨hz, h⟩

instance : DecidableRel corner_le := fun p q =>
  decidable_of_iff _ corner_le_iff_key.symm

instance : IsTotal (ℚ × ℚ × ℚ) corner_le :=
  ⟨fun a b => by
    rw [corner_le_iff_key, corner_le_iff_key]
    exact le_total (corner_key a) (corner_key b)⟩

instance : IsTrans (ℚ × ℚ × ℚ) corner_le :=
  ⟨fun a b c hab hbc => by
    rw [corner_le_iff_key] at hab hbc ⊢
    exact le_trans hab hbc⟩

theorem corner_le_refl (p : ℚ × ℚ × ℚ) : corner_le p p := by
  rw [corner_le_iff_key]

/-- `generate_corner_points`: origin plus the seven corner combinations of
every placed member's bounding box; deduplicated, filtered so the item's
extents stay inside the bin, and sorted by `(z, x, y)` ascending.  The
source deduplicates through an unordered Python `set`, but the final sort
key `(z, x, y)` determines the point, so the sorted output is the same for
any dedup order; `List.dedup` therefore models it exactly. -/
def generate_corner_points (b : Bin) (store : List Item) (item_dims : ℚ × ℚ × ℚ) :
    List (ℚ × ℚ × ℚ) :=
  if b.is_empty then [(0, 0, 0)]
  else
    let candidates := (0, 0, 0) :: (b.member_items store).flatMap (fun placed =>
      match placed.get_bounds with
      | none => []
      | some ((xmin, ymin, zmin), (xmax, ymax, zmax)) =>
        [(xmax, ymin, zmin), (xmin, ymax, zmin), (xmin, ymin, zmax),
         (xmax, ymax, zmin), (xmax, ymin, zmax), (xmin, ymax, zmax),
         (xmax, ymax, zmax)])
    let valid := candidates.dedup.filter (fun p =>
      decide (p.1 + item_dims.1 ≤ b.length ∧ p.2.1 + item_dims.2.1 ≤ b.width ∧
              p.2.2 + item_dims.2.2 ≤ b.height))
    List.insertionSort corner_le valid

/-- `find_position_with_rotation`: computes the effective extents under the
trial rotation (the source mutates the item's rotation and restores it — a
pure computation), generates the candidates, and returns the first
candidate accepted by `can_fit_item_at_position`. -/
def find_position_with_rotation (b : Bin) (store : List Item) (it : Item)
    (rot : Nat) : Option (ℚ × ℚ × ℚ) :=
  let item_dims := ({ it with rotation := rot } : Item).get_dimensions
  let candidates := generate_corner_points b store item_dims
  candidates.find? (fun p => b.can_fit_item_at_position store it p.1 p.2.1 p.2.2 rot)

/-- The loop body of `find_best_position_for_item`: keep the incumbent
unless this rotation found a position with strictly lower `z` (the source
tracks `best_height`, which always equals the incumbent's `z`). -/
def best_position_step (b : Bin) (store : List Item) (it : Item)
    (best : Option (ℚ × ℚ × ℚ × Nat)) (rot : Nat) : Option (ℚ × ℚ × ℚ × Nat) :=
  match find_position_with_rotation b store it rot with
  | none => best
  | some (x, y, z) =>
    match best with
    | none => some (x, y, z, rot)
    | some (_, _, bz, _) => if z < bz then some (x, y, z, rot) else best

/-- `find_best_position_for_item`: tries rotations `0..5` in order, keeping
the result with the strictly lowest `z` seen so far. -/
def find_best_position_for_item (b : Bin) (store : List Item) (it : Item) :
    Option (ℚ × ℚ × ℚ × Nat) :=
  (List.range 6).foldl (best_position_step b store it) none

/-- Volume of the item with the given id (0 when absent; absence is
unreachable in the source, where lists hold the objects themselves). -/
def item_volume (store : List Item) (i : Nat) : ℚ :=
  match lookup_item store i with
  | none => 0
  | some it => it.get_volume

/-- Python `sorted(items, key=volume, reverse=True)`: a stable descending
sort.  `insertionSort` with this relation inserts each element before the
first element of not-larger volume, which reproduces the stable order. -/
def sort_desc_volume (store : List Item) (ids : List Nat) : List Nat :=
  List.insertionSort (fun i j => item_volume store j ≤ item_volume store i) ids

/-- Result of `pack_items_in_bin`: the mutated bin, the mutated item store,
and the `(packed, unpacked)` classification (as item ids). -/
structure PackResult where
  bin : Bin
  store : List Item
  packed : List Nat
  unpacked : List Nat
deriving Repr, DecidableEq

/-- The packing loop of `pack_items_in_bin`: for each item in turn, find the
best position against the bin's current contents; on success set rotation
and position, add to the bin, and record as packed; otherwise record as
unpacked. -/
def pack_loop (b : Bin) (store : List Item) : List Nat → PackResult
  | [] => { bin := b, store := store, packed := [], unpacked := [] }
  | i :: rest =>
    match lookup_item store i with
    | none =>
      let r := pack_loop b store rest
      { r with unpacked := i :: r.unpacked }
    | some it =>
      match find_best_position_for_item b store it with
      | none =>
        let r := pack_loop b store rest
        { r with unpacked := i :: r.unpacked }
      | some (x, y, z, rot) =>
        let it2 : Item := { it with rotation := rot, position := some (x, y, z) }
        let store1 := set_item store it2
        let a := b.add_item store1 it2
        let r := pack_loop a.1 a.2 rest
        { r with packed := i :: r.packed }

/-- `pack_items_in_bin`: optionally sorts by descending volume, then packs
each item in turn, committing successes immediately. -/
def pack_items_in_bin (b : Bin) (store : List Item) (ids : List Nat)
    (sort_items : Bool) : PackResult :=
  pack_loop b store (if sort_items then sort_desc_volume store ids else ids)

/-! ## Solution model (`src/problem/solution.py`) -/

/-- State of a Python `Solution`: the fixed bin dimensions, the item
catalogue (`all_items`, the canonical owner of every item), and the bins.
The cached `_fitness` is not modelled: every operator invalidates it before
returning, so reads always see the freshly computed value. -/
structure Solution where
  bin_dimensions : ℚ × ℚ × ℚ
  all_items : List Item
  bins : List Bin
deriving Repr, DecidableEq

/-- `Solution.get_item_by_id`: first catalogue entry with the id. -/
def Solution.get_item_by_id (s : Solution) (i : Nat) : Option Item :=
  lookup_item s.all_items i

/-- Lookup of a bin by id in a bin list (first match), as in
`Solution.get_bin_by_id`. -/
def find_bin (bs : List Bin) (i : Nat) : Option Bin :=
  bs.find? (fun b => b.id == i)

/-- `Solution.get_bin_by_id`. -/
def Solution.get_bin_by_id (s : Solution) (i : Nat) : Option Bin :=
  find_bin s.bins i

/-- Writing a mutated bin back: replaces the first bin carrying the same id
(the object `find_bin` aliases). -/
def set_bin : List Bin → Bin → List Bin
  | [], _ => []
  | c :: rest, b => if c.id == b.id then b :: rest else c :: set_bin rest b

/-- `Solution.add_bin`: a fresh empty bin whose id is the current length of
the bin list, appended. -/
def Solution.add_bin (s : Solution) : Bin × Solution :=
  let new_bin : Bin :=
    { id := s.bins.length, length := s.bin_dimensions.1,
      width := s.bin_dimensions.2.1, height := s.bin_dimensions.2.2, items := [] }
  (new_bin, { s with bins := s.bins ++ [new_bin] })

/-- `Solution.get_used_bins`: bins with at least one item. -/
def Solution.get_used_bins (s : Solution) : List Bin :=
  s.bins.filter (fun b => ! b.is_empty)

/-- `Solution.get_unpacked_items`. -/
def Solution.get_unpacked_items (s : Solution) : List Item :=
  s.all_items.filter (fun it => ! it.is_assigned)

/-- One step of `Solution.copy`'s bin-reconstruction loop: a fresh bin whose
id is its index, re-populated with the old bin's members (repeated ids are
skipped), rewriting each member's `assigned_bin` to the new bin id.
A member id absent from the catalogue would be a Python `KeyError`
(unreachable: bins alias catalogue objects); it is skipped. -/
def copy_member_fold (new_id : Nat) (bi : List Nat × List Item) (i : Nat) :
    List Nat × List Item :=
  match lookup_item bi.2 i with
  | none => bi
  | some it =>
    if bi.1.contains i then bi
    else (bi.1 ++ [i], set_item bi.2 { it with assigned_bin := some new_id })

def copy_bin_fold (dims : ℚ × ℚ × ℚ) (acc : List Bin × List Item) (old : Bin) :
    List Bin × List Item :=
  let new_id := acc.1.length
  let step := old.items.foldl (copy_member_fold new_id) ([], acc.2)
  (acc.1 ++ [{ id := new_id, length := dims.1, width := dims.2.1,
               height := dims.2.2, items := step.1 }], step.2)

/-- `Solution.copy`: fresh items carrying identical state, then bins rebuilt
through `add_bin` (so the new ids are the list indices) with membership and
assignment re-established by item id.  Object freshness (the aliasing
content of `copy`) is modelled separately in the heap section below. -/
def Solution.copy (s : Solution) : Solution :=
  let folded := s.bins.foldl (copy_bin_fold s.bin_dimensions) ([], s.all_items)
  { bin_dimensions := s.bin_dimensions, all_items := folded.2, bins := folded.1 }

/-! ## Neighborhood operators (`src/algorithms/operators.py`) -/

/-- `swap_items`: both items must exist, be assigned, and live in different
bins; on a deep copy, the two bins exchange the items and are repacked from
scratch; rejected only when both swapped items end up unpacked. -/
def swap_items (s : Solution) (item1_id item2_id : Nat) : Option Solution :=
  match s.get_item_by_id item1_id, s.get_item_by_id item2_id with
  | some item1, some item2 =>
    if ¬ item1.is_assigned ∨ ¬ item2.is_assigned then none
    else if item1.assigned_bin = item2.assigned_bin then none
    else
      let ns := s.copy
      match ns.get_item_by_id item1_id, ns.get_item_by_id item2_id with
      | some new_item1, some new_item2 =>
        match new_item1.assigned_bin, new_item2.assigned_bin with
        | some a1, some a2 =>
          match ns.get_bin_by_id a1, ns.get_bin_by_id a2 with
          | some bin1, some bin2 =>
            let items_bin1 := bin1.items.filter (fun i => i ≠ new_item1.id) ++ [new_item2.id]
            let items_bin2 := bin2.items.filter (fun i => i ≠ new_item2.id) ++ [new_item1.id]
            let c1 := bin1.clear ns.all_items
            let c2 := bin2.clear c1.2
            let r1 := pack_items_in_bin c1.1 c2.2 items_bin1 true
            let r2 := pack_items_in_bin c2.1 r1.store items_bin2 true
            if new_item1.id ∈ r2.unpacked ∧ new_item2.id ∈ r1.unpacked then none
            else some { ns with all_items := r2.store,
                                bins := set_bin (set_bin ns.bins r1.bin) r2.bin }
          | _, _ => none
        | _, _ => none
      | _, _ => none
  | _, _ => none

/-- `move_item`: the item must exist, be assigned, and the target bin must
exist and differ from its current bin; on a deep copy the item is moved and
both bins repacked; rejected only when the moved item fails to repack. -/
def move_item (s : Solution) (item_id target_bin_id : Nat) : Option Solution :=
  match s.get_item_by_id item_id with
  | none => none
  | some item =>
    if ¬ item.is_assigned then none
    else if item.assigned_bin = some target_bin_id then none
    else
      match s.get_bin_by_id target_bin_id with
      | none => none
      | some _ =>
        let ns := s.copy
        match ns.get_item_by_id item_id with
        | none => none
        | some new_item =>
          match new_item.assigned_bin with
          | none => none
          | some ab =>
            match ns.get_bin_by_id ab, ns.get_bin_by_id target_bin_id with
            | some old_bin, some new_bin =>
              let old_bin_items := old_bin.items.filter (fun i => i ≠ new_item.id)
              let new_bin_items := new_bin.items ++ [new_item.id]
              let c1 := old_bin.clear ns.all_items
              let c2 := new_bin.clear c1.2
              let r1 := pack_items_in_bin c1.1 c2.2 old_bin_items true
              let r2 := pack_items_in_bin c2.1 r1.store new_bin_items true
              if new_item.id ∈ r2.unpacked then none
              else some { ns with all_items := r2.store,
                                  bins := set_bin (set_bin ns.bins r1.bin) r2.bin }
            | _, _ => none

/-- `merge_bins_aggressive`: skipped when the pooled used volume exceeds 1.5
times the capacity; otherwise everything is repacked into the first bin
alone and accepted when nothing, or no more than 20 percent, is left
unpacked (`0.8` and `1.5` are exact in binary floating point at the scales
involved; they are modelled as the exact rationals). -/
def merge_bins_aggressive (s : Solution) (bin1_id bin2_id : Nat) : Option Solution :=
  match s.get_bin_by_id bin1_id, s.get_bin_by_id bin2_id with
  | some bin1, some bin2 =>
    if bin1.id = bin2.id then none
    else
      let total_volume := bin1.get_used_volume s.all_items + bin2.get_used_volume s.all_items
      if total_volume > bin1.get_volume * (3 / 2) then none
      else
        let ns := s.copy
        match ns.get_bin_by_id bin1_id, ns.get_bin_by_id bin2_id with
        | some nb1, some nb2 =>
          let all_ids := nb1.items ++ nb2.items
          let c1 := nb1.clear ns.all_items
          let c2 := nb2.clear c1.2
          let r := pack_items_in_bin c1.1 c2.2 all_ids true
          if r.unpacked = [] then
            some { ns with all_items := r.store,
                           bins := set_bin (set_bin ns.bins c2.1) r.bin }
          else if (r.packed.length : ℚ) ≥ (all_ids.length : ℚ) * (4 / 5) then
            some { ns with all_items := r.store,
                           bins := set_bin (set_bin ns.bins c2.1) r.bin }
          else none
        | _, _ => none
  | _, _ => none

/-- `rebalance_bins`: requires a utilization gap of at least 20 percentage
points; pools both bins' items, repacks into the first bin, overflow into
the second; always returns a candidate once the gap test passes. -/
def rebalance_bins (s : Solution) (bin1_id bin2_id : Nat) : Option Solution :=
  match s.get_bin_by_id bin1_id, s.get_bin_by_id bin2_id with
  | some bin1, some bin2 =>
    let util1 := bin1.get_volume_utilization s.all_items
    let util2 := bin2.get_volume_utilization s.all_items
    if |util1 - util2| < 20 then none
    else
      let ns := s.copy
      match ns.get_bin_by_id bin1_id, ns.get_bin_by_id bin2_id with
      | some nb1, some nb2 =>
        let all_ids := nb1.items ++ nb2.items
        let c1 := nb1.clear ns.all_items
        let c2 := nb2.clear c1.2
        let r1 := pack_items_in_bin c1.1 c2.2 all_ids true
        let r2 := if r1.unpacked.isEmpty then
            ({ bin := c2.1, store := r1.store, packed := [], unpacked := [] } : PackResult)
          else pack_items_in_bin c2.1 r1.store r1.unpacked true
        some { ns with all_items := r2.store,
                       bins := set_bin (set_bin ns.bins r1.bin) r2.bin }
      | _, _ => none
  | _, _ => none

/-- Python's stable ascending sort of the used bins by utilization
(`sorted(used_bins, key=...)`). -/
def sort_bins_by_util (store : List Item) (bs : List Bin) : List Bin :=
  List.insertionSort
    (fun a b => a.get_volume_utilization store ≤ b.get_volume_utilization store) bs

/-- The inner loop of `consolidate_small_bins`: try to place item `i` into
each other non-empty bin in turn (a trial repack of that bin's items plus
`i`, whose effect on the bin persists even when `i` itself stays unpacked);
stop at the first bin where `i` packs.  Returns the mutated store and bins
and whether `i` was placed. -/
def consolidate_try_bins (smallest_id i : Nat) :
    List Nat → List Item → List Bin → List Item × List Bin × Bool
  | [], store, bins => (store, bins, false)
  | bid :: rest, store, bins =>
    match find_bin bins bid with
    | none => consolidate_try_bins smallest_id i rest store bins
    | some b =>
      if bid ≠ smallest_id ∧ ¬ b.is_empty then
        let test_items := b.items ++ [i]
        let c := b.clear store
        let r := pack_items_in_bin c.1 c.2 test_items true
        if i ∈ r.packed then (r.store, set_bin bins r.bin, true)
        else consolidate_try_bins smallest_id i rest r.store (set_bin bins r.bin)
      else consolidate_try_bins smallest_id i rest store bins

/-- The outer loop of `consolidate_small_bins`: relocate each item of the
emptied bin; an item that fits nowhere is put back into the (cleared)
smallest bin through `add_item`, with whatever state it currently has. -/
def consolidate_loop (smallest_id : Nat) (bin_order : List Nat) :
    List Nat → List Item → List Bin → List Item × List Bin
  | [], store, bins => (store, bins)
  | i :: rest, store, bins =>
    let t := consolidate_try_bins smallest_id i bin_order store bins
    if t.2.2 then consolidate_loop smallest_id bin_order rest t.1 t.2.1
    else
      match find_bin t.2.1 smallest_id, lookup_item t.1 i with
      | some sm, some it =>
        let a := sm.add_item t.1 it
        consolidate_loop smallest_id bin_order rest a.2 (set_bin t.2.1 a.1)
      | _, _ => consolidate_loop smallest_id bin_order rest t.1 t.2.1

/-- `consolidate_small_bins`: pick the least-utilized used bin (stable sort,
first element); skip when it is more than 60 percent utilized; on a deep
copy, clear it and try to redistribute its items into the other non-empty
bins; accept when the bin ends empty or with fewer than half its original
items. -/
def consolidate_small_bins (s : Solution) : Option Solution :=
  let used_bins := s.get_used_bins
  if used_bins.length < 2 then none
  else
    match sort_bins_by_util s.all_items used_bins with
    | [] => none
    | smallest :: _ =>
      if smallest.get_volume_utilization s.all_items > 60 then none
      else
        let ns := s.copy
        match ns.get_bin_by_id smallest.id with
        | none => none
        | some new_smallest =>
          let items_to_relocate := new_smallest.items
          let c := new_smallest.clear ns.all_items
          let bins0 := set_bin ns.bins c.1
          let bin_order := ns.bins.map Bin.id
          let res := consolidate_loop smallest.id bin_order items_to_relocate c.2 bins0
          match find_bin res.2 smallest.id with
          | none => none
          | some final_small =>
            if final_small.is_empty then
              some { ns with all_items := res.1, bins := res.2 }
            else if (final_small.items.length : ℚ) <
                (smallest.items.length : ℚ) * (1 / 2) then
              some { ns with all_items := res.1, bins := res.2 }
            else none

/-! ## Exhaustive neighbor generation and the Local Search driver
(`src/algorithms/operators.py`, `src/algorithms/local_search.py`) -/

/-- The ordered pairs `(items[i], items[j])` with `i < j`, as enumerated by
the nested loops of `get_all_swap_neighbors`. -/
def swap_pairs : List Item → List (Item × Item)
  | [] => []
  | x :: rest => rest.map (fun y => (x, y)) ++ swap_pairs rest

/-- `get_all_swap_neighbors`: every successful swap of two assigned items
living in different bins. -/
def get_all_swap_neighbors (s : Solution) : List Solution :=
  (swap_pairs (s.all_items.filter Item.is_assigned)).filterMap
    (fun p => if p.1.assigned_bin ≠ p.2.assigned_bin
              then swap_items s p.1.id p.2.id else none)

/-- `get_all_move_neighbors`: every successful move of an assigned item to a
different bin. -/
def get_all_move_neighbors (s : Solution) : List Solution :=
  (s.all_items.filter Item.is_assigned).flatMap (fun it =>
    s.bins.filterMap (fun b =>
      if some b.id ≠ it.assigned_bin then move_item s it.id b.id else none))

/-- The index pairs `i < j` over `range n`, as enumerated by
`get_all_rebalance_neighbors`. -/
def index_pairs (n : Nat) : List (Nat × Nat) :=
  (List.range n).flatMap (fun i =>
    ((List.range n).filter (fun j => i < j)).map (fun j => (i, j)))

/-- `get_all_rebalance_neighbors`: rebalancing over every index pair of the
bins list, passing the list indices directly as bin ids. -/
def get_all_rebalance_neighbors (s : Solution) : List Solution :=
  (index_pairs s.bins.length).filterMap (fun p => rebalance_bins s p.1 p.2)

/-- The neighbor set explored by one iteration of `LocalSearch.solve`:
swap, move and rebalance neighbors, in that order. -/
def all_neighbors (s : Solution) : List Solution :=
  get_all_swap_neighbors s ++ get_all_move_neighbors s ++ get_all_rebalance_neighbors s

/-- Python `min(neighbors, key=fitness)`: the first element of minimal
fitness (later elements replace the champion only when strictly smaller). -/
def min_by_fitness (fit : Solution → ℚ) : List Solution → Option Solution
  | [] => none
  | x :: rest =>
    match min_by_fitness fit rest with
    | none => some x
    | some m => if fit m < fit x then some m else some x

/-- One iteration of `LocalSearch.solve`'s loop body: generate all
neighbors; stop (`none`) when there are none, or when the best neighbor
does not strictly improve on the current fitness; otherwise move to the
best neighbor.  The fitness function is passed as a parameter (the source
reads the float-valued `get_fitness`, whose formula involves a square
root; the driver's control flow uses it only through comparisons). -/
def local_search_step (fit : Solution → ℚ) (cur : Solution) : Option Solution :=
  match min_by_fitness fit (all_neighbors cur) with
  | none => none
  | some bn => if fit bn < fit cur then some bn else none

/-- The sequence of `current` solutions produced by `LocalSearch.solve`
starting from `cur` with `fuel` remaining iterations (`fuel` starts at
`max_iterations`): each loop entry either moves to the strictly improving
best neighbor or terminates. -/
def local_search_trace (fit : Solution → ℚ) : Nat → Solution → List Solution
  | 0, cur => [cur]
  | n + 1, cur =>
    cur :: (match local_search_step fit cur with
            | none => []
            | some nxt => local_search_trace fit n nxt)

/-! ## Simulated annealing acceptance
(`src/algorithms/simulated_annealing.py`) -/

/-- `SimulatedAnnealing.acceptance_probability`.  `math.exp` is a
floating-point transcendental; it is abstracted as the parameter `exp`,
which the method applies only in the final branch.  The claim under check
concerns the branch structure: better neighbors give probability `1.0`,
worse ones give `0.0` at zero temperature (so the division is guarded) and
`exp` of `-(neighbor - current) / temperature` otherwise. -/
def acceptance_probability (exp : ℚ → ℚ)
    (current_fitness neighbor_fitness temperature : ℚ) : ℚ :=
  if neighbor_fitness < current_fitness then 1
  else if temperature = 0 then 0
  else exp (-(neighbor_fitness - current_fitness) / temperature)

/-! ## Basic lemmas -/

theorem get_bounds_isSome {it : Item} {b} (h : it.get_bounds = some b) :
    it.is_placed = true := by
  unfold Item.get_bounds at h
  unfold Item.is_placed
  cases hp : it.position with
  | none => rw [hp] at h; simp at h
  | some p => simp [hp]

/-! ## Claim C7: the overlap test -/

/-- Claim C7: for every pair of placed items, `check_overlap` returns true
if and only if the two axis-aligned boxes intersect strictly on all three
axes (`min_a < max_b` and `max_a > min_b` per axis, all three conjoined);
in particular touching faces (`max_a = min_b` on some axis) do not count
as overlap. -/
theorem check_overlap_spec (it1 it2 : Item)
    (x1min y1min z1min x1max y1max z1max : ℚ)
    (x2min y2min z2min x2max y2max z2max : ℚ)
    (h1 : it1.get_bounds = some ((x1min, y1min, z1min), (x1max, y1max, z1max)))
    (h2 : it2.get_bounds = some ((x2min, y2min, z2min), (x2max, y2max, z2max))) :
    (check_overlap it1 it2 = true ↔
      ((x1min < x2max ∧ x1max > x2min) ∧ (y1min < y2max ∧ y1max > y2min) ∧
       (z1min < z2max ∧ z1max > z2min))) := by
  have p1 := get_bounds_isSome h1
  have p2 := get_bounds_isSome h2
  simp [check_overlap, p1, p2, h1, h2]

/-- A concrete instance of C7: unit boxes at `(0,0,0)` and `(1,0,0)` touch
on a face and do not overlap. -/
theorem check_overlap_spec_witness :
    (check_overlap
      { id := 0, length := 1, width := 1, height := 1, position := some (0, 0, 0) }
      { id := 1, length := 1, width := 1, height := 1, position := some (1, 0, 0) } = true ↔
      (((0 : ℚ) < 2 ∧ (1 : ℚ) > 1) ∧ ((0 : ℚ) < 1 ∧ (1 : ℚ) > 0) ∧
       ((0 : ℚ) < 1 ∧ (1 : ℚ) > 0))) :=
  check_overlap_spec _ _ 0 0 0 1 1 1 1 0 0 2 1 1 (by decide) (by decide)

/-! ## Claim C9: `set_rotation` validation -/

/-- Claim C9: `Item.set_rotation r` raises (modelled as `none`) exactly when
`r` is outside `[0,5]`; a raise leaves the item unchanged (the exception
aborts before mutation, so the caller's item state is untouched by
construction), and on success the result differs from the input only in the
rotation field, which becomes `r`. -/
theorem set_rotation_spec (it : Item) (r : Int) :
    (it.set_rotation r = none ↔ (r < 0 ∨ 5 < r)) ∧
    (∀ it2, it.set_rotation r = some it2 →
      (it2 = { it with rotation := r.toNat } ∧ (it2.rotation : Int) = r)) := by
  by_cases h : 0 ≤ r ∧ r ≤ 5
  · constructor
    · rw [Item.set_rotation, if_pos h]
      constructor
      · intro hs
        exact absurd hs (by simp)
      · intro hc
        exact absurd hc (by omega)
    · intro it2 hsome
      rw [Item.set_rotation, if_pos h] at hsome
      have heq := Option.some.inj hsome
      refine ⟨heq.symm, ?_⟩
      rw [← heq]
      show ((r.toNat : Int) = r)
      exact Int.toNat_of_nonneg h.1
  · constructor
    · rw [Item.set_rotation, if_neg h]
      constructor
      · intro _
        omega
      · intro _
        rfl
    · intro it2 hsome
      rw [Item.set_rotation, if_neg h] at hsome
      exact absurd hsome (by simp)

/-- A concrete instance of C9: rotation 7 is rejected, rotation 3 accepted
and stored. -/
theorem set_rotation_spec_witness :
    (({ id := 0, length := 1, width := 2, height := 3 } : Item).set_rotation 7 = none ↔
      ((7 : Int) < 0 ∨ (5 : Int) < 7)) ∧
    (∀ it2, ({ id := 0, length := 1, width := 2, height := 3 } : Item).set_rotation 7 = some it2 →
      (it2 = { id := 0, length := 1, width := 2, height := 3, rotation := (7 : Int).toNat } ∧
       (it2.rotation : Int) = 7)) :=
  set_rotation_spec { id := 0, length := 1, width := 2, height := 3 } 7

/-! ## Claim C6: the Metropolis acceptance probability -/

/-- Claim C6: `acceptance_probability` returns `1.0` when the neighbor's
fitness is lower; otherwise it returns `0.0` at zero temperature and
`exp (-(neighbor - current) / temperature)` at nonzero temperature, so the
division is never taken with a zero divisor. -/
theorem acceptance_probability_spec (exp : ℚ → ℚ) (c n T : ℚ) :
    (n < c → acceptance_probability exp c n T = 1) ∧
    (¬ n < c → T = 0 → acceptance_probability exp c n T = 0) ∧
    (¬ n < c → T ≠ 0 → acceptance_probability exp c n T = exp (-(n - c) / T)) := by
  unfold acceptance_probability
  refine ⟨fun h => by simp [h], fun h hT => by simp [h, hT], fun h hT => by simp [h, hT]⟩

/-- A concrete instance of C6: a worse neighbor at temperature 2 yields the
Metropolis expression. -/
theorem acceptance_probability_spec_witness :
    acceptance_probability (fun q => q + 1) 1 3 2 = (fun q : ℚ => q + 1) (-((3 : ℚ) - 1) / 2) :=
  (acceptance_probability_spec (fun q => q + 1) 1 3 2).2.2 (by norm_num) (by norm_num)

/-! ## Claim C2: the position/assignment invariant

`consolidate_small_bins` puts an item that could not be relocated back into
the (previously cleared) smallest bin via `add_item`, but the clear had
already reset the item's position to `None`.  When the operator then
accepts the move (bin emptied by more than half), it returns a solution in
which that item is a member of a bin and has `assigned_bin` set while its
`position` is unset — contradicting both the spec's invariant and
`add_item`'s own docstring ("Item must already have position set").  The
concrete input below exhibits this. -/

/-- Failing input for C2: bins of shape `10 x 1 x 1`; bins 0 and 2 hold a
`9 x 1 x 1` item each (90 percent full), bin 1 holds two unit cubes and one
`2 x 1 x 1` item (40 percent full, the consolidation target).  The unit
cubes relocate into the leftover space of bins 0 and 2; the `2 x 1 x 1`
item (id 4) fits nowhere and is put back unplaced. -/
def consolidate_bug_input : Solution :=
  { bin_dimensions := (10, 1, 1),
    all_items :=
      [{ id := 0, length := 9, width := 1, height := 1,
         position := some (0, 0, 0), assigned_bin := some 0 },
       { id := 1, length := 9, width := 1, height := 1,
         position := some (0, 0, 0), assigned_bin := some 2 },
       { id := 2, length := 1, width := 1, height := 1,
         position := some (0, 0, 0), assigned_bin := some 1 },
       { id := 3, length := 1, width := 1, height := 1,
         position := some (1, 0, 0), assigned_bin := some 1 },
       { id := 4, length := 2, width := 1, height := 1,
         position := some (2, 0, 0), assigned_bin := some 1 }],
    bins := [{ id := 0, length := 10, width := 1, height := 1, items := [0] },
             { id := 1, length := 10, width := 1, height := 1, items := [2, 3, 4] },
             { id := 2, length := 10, width := 1, height := 1, items := [1] }] }

/-- Claim C2 (code bug): on `consolidate_bug_input` — a fully consistent,
feasible solution — `consolidate_small_bins` returns a solution where item
4 is a member of bin 1's collection and has `assigned_bin = some 1`, yet
its `position` is `none`: membership and the position field diverge, which
the claim says must never happen. -/
theorem consolidate_breaks_position_invariant :
    (consolidate_small_bins consolidate_bug_input).map
      (fun out => ((find_bin out.bins 1).map Bin.items,
                   (lookup_item out.all_items 4).map Item.position,
                   (lookup_item out.all_items 4).map Item.assigned_bin))
      = some (some [4], some none, some (some 1)) := by rfl

/-! ## Claim C3: `pack_items_in_bin` partitions its input -/

/-- A bin that already holds a placed unit cube (id 0) — the state at which
the claim's "the bin contains exactly the packed items" fails, since
`pack_items_in_bin` never clears the bin it packs into. -/
def prepacked_store : List Item :=
  [{ id := 0, length := 1, width := 1, height := 1,
     position := some (0, 0, 0), assigned_bin := some 0 },
   { id := 1, length := 1, width := 1, height := 1 }]

/-- The pre-populated bin for the C3 counterexample. -/
def prepacked_bin : Bin :=
  { id := 0, length := 2, width := 1, height := 1, items := [0] }

/-- Counterexample to C3 as stated: packing item 1 into a bin that already
holds item 0 succeeds (`packed = [1]`), but the bin afterwards contains
`[0, 1]`, not exactly the packed items: `pack_items_in_bin` leaves prior
contents in place. -/
theorem pack_items_in_bin_not_exactly_packed :
    ((pack_items_in_bin prepacked_bin prepacked_store [1] true).bin.items = [0, 1] ∧
     (pack_items_in_bin prepacked_bin prepacked_store [1] true).packed = [1]) ∧
    ¬ ((pack_items_in_bin prepacked_bin prepacked_store [1] true).bin.items =
       (pack_items_in_bin prepacked_bin prepacked_store [1] true).packed) := by
  refine ⟨⟨by rfl, by rfl⟩, ?_⟩
  intro h
  rw [show (pack_items_in_bin prepacked_bin prepacked_store [1] true).bin.items = [0, 1]
        from rfl] at h
  rw [show (pack_items_in_bin prepacked_bin prepacked_store [1] true).packed = [1]
        from rfl] at h
  simp at h

/-! ## Claim C4: characterization of the position search -/

theorem generate_corner_points_sorted (b : Bin) (store : List Item)
    (dims : ℚ × ℚ × ℚ) :
    List.Sorted corner_le (generate_corner_points b store dims) := by
  unfold generate_corner_points
  by_cases h : b.is_empty
  · simp [h]
  · simp only [h, Bool.false_eq_true, if_false]
    exact List.sorted_insertionSort corner_le _

/-- `List.find?` on a sorted list returns a minimal element among those
satisfying the predicate. -/
theorem find?_min_of_sorted {α : Type} {r : α → α → Prop} (hrefl : ∀ a, r a a)
    {p : α → Bool} :
    ∀ {l : List α}, l.Sorted r → ∀ {a : α}, l.find? p = some a →
      a ∈ l ∧ p a = true ∧ ∀ x ∈ l, p x = true → r a x := by
  intro l
  induction l with
  | nil => intro _ a h; simp at h
  | cons x xs ih =>
    intro hs a hfind
    have hx := List.sorted_cons.mp hs
    by_cases hpx : p x = true
    · rw [List.find?_cons_of_pos _ hpx] at hfind
      have hax : a = x := by
        injection hfind with h'
        exact h'.symm
      subst hax
      refine ⟨List.mem_cons_self _ _, hpx, ?_⟩
      intro y hy _
      rcases List.mem_cons.mp hy with h' | h'
      · subst h'; exact hrefl _
      · exact hx.1 y h'
    · rw [List.find?_cons_of_neg _ hpx] at hfind
      obtain ⟨hmem, hpa, hmin⟩ := ih hx.2 hfind
      refine ⟨List.mem_cons_of_mem _ hmem, hpa, ?_⟩
      intro y hy hpy
      rcases List.mem_cons.mp hy with h' | h'
      · subst h'; exact absurd hpy hpx
      · exact hmin y h' hpy

/-- Characterization of `find_position_with_rotation`: it returns `none`
exactly when no generated candidate admits a valid placement, and otherwise
returns a valid candidate that is `(z, x, y)`-lexicographically least among
all valid candidates. -/
theorem find_position_with_rotation_spec (b : Bin) (store : List Item)
    (it : Item) (rot : Nat) :
    (find_position_with_rotation b store it rot = none ↔
      ∀ p ∈ generate_corner_points b store
          ({ it with rotation := rot } : Item).get_dimensions,
        ¬ (b.can_fit_item_at_position store it p.1 p.2.1 p.2.2 rot = true)) ∧
    (∀ q, find_position_with_rotation b store it rot = some q →
      q ∈ generate_corner_points b store
          ({ it with rotation := rot } : Item).get_dimensions ∧
      b.can_fit_item_at_position store it q.1 q.2.1 q.2.2 rot = true ∧
      ∀ p ∈ generate_corner_points b store
          ({ it with rotation := rot } : Item).get_dimensions,
        b.can_fit_item_at_position store it p.1 p.2.1 p.2.2 rot = true →
          corner_le q p) := by
  constructor
  · rw [find_position_with_rotation, List.find?_eq_none]
  · intro q hq
    exact find?_min_of_sorted corner_le_refl
      (generate_corner_points_sorted b store _) hq

theorem some4_inj {α β γ δ : Type} {a1 a2 : α} {b1 b2 : β} {c1 c2 : γ} {d1 d2 : δ}
    (h : (some (a1, b1, c1, d1) : Option (α × β × γ × δ)) = some (a2, b2, c2, d2)) :
    a1 = a2 ∧ b1 = b2 ∧ c1 = c2 ∧ d1 = d2 := by
  injection h with h'
  simpa using h'

theorem some3_inj {α β γ : Type} {a1 a2 : α} {b1 b2 : β} {c1 c2 : γ}
    (h : (some (a1, b1, c1) : Option (α × β × γ)) = some (a2, b2, c2)) :
    a1 = a2 ∧ b1 = b2 ∧ c1 = c2 := by
  injection h with h'
  simpa using h'

/-- Invariant of the fold inside `find_best_position_for_item`: the result
is `none` exactly when the accumulator is `none` and every listed rotation
fails, and a `some` result is either the untouched accumulator or comes
from a listed rotation, with `z` at most the accumulator's height and at
most the height of every listed rotation's result. -/
theorem best_position_fold_spec (b : Bin) (store : List Item) (it : Item) :
    ∀ (l : List Nat) (acc : Option (ℚ × ℚ × ℚ × Nat)),
      ((l.foldl (best_position_step b store it) acc = none) ↔
        (acc = none ∧ ∀ r ∈ l, find_position_with_rotation b store it r = none)) ∧
      (∀ x y z rot, l.foldl (best_position_step b store it) acc = some (x, y, z, rot) →
        ((acc = some (x, y, z, rot) ∨
          (rot ∈ l ∧ find_position_with_rotation b store it rot = some (x, y, z))) ∧
         (∀ x0 y0 z0 r0, acc = some (x0, y0, z0, r0) → z ≤ z0) ∧
         (∀ r ∈ l, ∀ p q u, find_position_with_rotation b store it r = some (p, q, u) →
            z ≤ u))) := by
  intro l
  induction l with
  | nil =>
    intro acc
    constructor
    · simp
    · intro x y z rot h
      simp only [List.foldl_nil] at h
      refine ⟨Or.inl h, ?_, by simp⟩
      intro x0 y0 z0 r0 h0
      rw [h] at h0
      obtain ⟨-, -, e3, -⟩ := some4_inj h0
      rw [e3]
  | cons r l ih =>
    intro acc
    have hstep : (r :: l).foldl (best_position_step b store it) acc =
        l.foldl (best_position_step b store it) (best_position_step b store it acc r) := by
      simp [List.foldl_cons]
    constructor
    · rw [hstep, (ih _).1]
      constructor
      · rintro ⟨hacc, hall⟩
        cases hfr : find_position_with_rotation b store it r with
        | none =>
          have hse : best_position_step b store it acc r = acc := by
            simp [best_position_step, hfr]
          rw [hse] at hacc
          refine ⟨hacc, ?_⟩
          intro r' hr'
          rcases List.mem_cons.mp hr' with h' | h'
          · subst h'; exact hfr
          · exact hall r' h'
        | some v =>
          obtain ⟨p0, q0, u0⟩ := v
          exfalso
          cases acc with
          | none =>
            have hse : best_position_step b store it none r = some (p0, q0, u0, r) := by
              simp [best_position_step, hfr]
            rw [hse] at hacc
            exact absurd hacc (by simp)
          | some w =>
            obtain ⟨a1, a2, a3, a4⟩ := w
            by_cases hz : u0 < a3
            · have hse : best_position_step b store it (some (a1, a2, a3, a4)) r =
                  some (p0, q0, u0, r) := by
                simp [best_position_step, hfr, hz]
              rw [hse] at hacc
              exact absurd hacc (by simp)
            · have hse : best_position_step b store it (some (a1, a2, a3, a4)) r =
                  some (a1, a2, a3, a4) := by
                simp [best_position_step, hfr, hz]
              rw [hse] at hacc
              exact absurd hacc (by simp)
      · rintro ⟨hacc, hall⟩
        subst hacc
        have hfr := hall r (List.mem_cons_self _ _)
        have hse : best_position_step b store it none r = none := by
          simp [best_position_step, hfr]
        rw [hse]
        exact ⟨rfl, fun r' hr' => hall r' (List.mem_cons_of_mem _ hr')⟩
    · intro x y z rot h
      rw [hstep] at h
      obtain ⟨hsrc, haccz, hlistz⟩ := (ih _).2 x y z rot h
      cases hfr : find_position_with_rotation b store it r with
      | none =>
        have hse : best_position_step b store it acc r = acc := by
          simp [best_position_step, hfr]
        rw [hse] at hsrc haccz
        refine ⟨?_, haccz, ?_⟩
        · rcases hsrc with h' | h'
          · exact Or.inl h'
          · exact Or.inr ⟨List.mem_cons_of_mem _ h'.1, h'.2⟩
        · intro r' hr' p q u hr'eq
          rcases List.mem_cons.mp hr' with h' | h'
          · subst h'; rw [hfr] at hr'eq; exact absurd hr'eq (by simp)
          · exact hlistz r' h' p q u hr'eq
      | some v =>
        obtain ⟨p0, q0, u0⟩ := v
        cases acc with
        | none =>
          have hse : best_position_step b store it none r = some (p0, q0, u0, r) := by
            simp [best_position_step, hfr]
          rw [hse] at hsrc haccz
          refine ⟨?_, by simp, ?_⟩
          · rcases hsrc with h' | h'
            · obtain ⟨e1, e3, e5, e6⟩ := some4_inj h'
              refine Or.inr ⟨e6 ▸ List.mem_cons_self _ _, ?_⟩
              rw [← e6, hfr, e1, e3, e5]
            · exact Or.inr ⟨List.mem_cons_of_mem _ h'.1, h'.2⟩
          · intro r' hr' p q u hr'eq
            rcases List.mem_cons.mp hr' with h' | h'
            · subst h'
              rw [hfr] at hr'eq
              obtain ⟨-, -, e4⟩ := some3_inj hr'eq
              rw [← e4]
              rcases hsrc with h' | h'
              · obtain ⟨-, -, e5, -⟩ := some4_inj h'
                exact le_of_eq e5.symm
              · exact haccz p0 q0 u0 r' rfl
            · exact hlistz r' h' p q u hr'eq
        | some w =>
          obtain ⟨a1, a2, a3, a4⟩ := w
          by_cases hz : u0 < a3
          · have hse : best_position_step b store it (some (a1, a2, a3, a4)) r =
                some (p0, q0, u0, r) := by
              simp [best_position_step, hfr, hz]
            rw [hse] at hsrc haccz
            have hzu : z ≤ u0 := haccz p0 q0 u0 r rfl
            refine ⟨?_, ?_, ?_⟩
            · rcases hsrc with h' | h'
              · obtain ⟨e1, e3, e5, e6⟩ := some4_inj h'
                refine Or.inr ⟨e6 ▸ List.mem_cons_self _ _, ?_⟩
                rw [← e6, hfr, e1, e3, e5]
              · exact Or.inr ⟨List.mem_cons_of_mem _ h'.1, h'.2⟩
            · intro x0 y0 z0 r0 h0
              obtain ⟨-, -, e5, -⟩ := some4_inj h0
              rw [← e5]
              exact le_of_lt (lt_of_le_of_lt hzu hz)
            · intro r' hr' p q u hr'eq
              rcases List.mem_cons.mp hr' with h' | h'
              · subst h'
                rw [hfr] at hr'eq
                obtain ⟨-, -, e4⟩ := some3_inj hr'eq
                rw [← e4]
                exact hzu
              · exact hlistz r' h' p q u hr'eq
          · have hse : best_position_step b store it (some (a1, a2, a3, a4)) r =
                some (a1, a2, a3, a4) := by
              simp [best_position_step, hfr, hz]
            rw [hse] at hsrc haccz
            have hza : z ≤ a3 := haccz a1 a2 a3 a4 rfl
            refine ⟨?_, ?_, ?_⟩
            · rcases hsrc with h' | h'
              · exact Or.inl h'
              · exact Or.inr ⟨List.mem_cons_of_mem _ h'.1, h'.2⟩
            · intro x0 y0 z0 r0 h0
              obtain ⟨-, -, e5, -⟩ := some4_inj h0
              rw [← e5]
              exact hza
            · intro r' hr' p q u hr'eq
              rcases List.mem_cons.mp hr' with h' | h'
              · subst h'
                rw [hfr] at hr'eq
                obtain ⟨-, -, e4⟩ := some3_inj hr'eq
                rw [← e4]
                exact le_trans hza (le_of_not_lt hz)
              · exact hlistz r' h' p q u hr'eq

/-- Claim C4: `find_best_position_for_item` tries all 6 rotations; within
each rotation the chosen candidate is, among the generated corner-point
candidates admitting a valid placement (`can_fit_item_at_position`: within
bounds and no overlap with placed members), the lexicographically smallest
by `(z, x, y)`; across rotations the returned placement has the globally
lowest `z` among the per-rotation results; and it returns `none` exactly
when no rotation admits any valid corner-point placement. -/
theorem find_best_position_spec (b : Bin) (store : List Item) (it : Item) :
    (∀ rot : Nat,
      (find_position_with_rotation b store it rot = none ↔
        ∀ p ∈ generate_corner_points b store
            ({ it with rotation := rot } : Item).get_dimensions,
          ¬ (b.can_fit_item_at_position store it p.1 p.2.1 p.2.2 rot = true)) ∧
      (∀ q, find_position_with_rotation b store it rot = some q →
        q ∈ generate_corner_points b store
            ({ it with rotation := rot } : Item).get_dimensions ∧
        b.can_fit_item_at_position store it q.1 q.2.1 q.2.2 rot = true ∧
        ∀ p ∈ generate_corner_points b store
            ({ it with rotation := rot } : Item).get_dimensions,
          b.can_fit_item_at_position store it p.1 p.2.1 p.2.2 rot = true →
            corner_le q p)) ∧
    (find_best_position_for_item b store it = none ↔
      ∀ rot < 6, find_position_with_rotation b store it rot = none) ∧
    (∀ x y z rot, find_best_position_for_item b store it = some (x, y, z, rot) →
      rot < 6 ∧ find_position_with_rotation b store it rot = some (x, y, z) ∧
      ∀ r < 6, ∀ p q u, find_position_with_rotation b store it r = some (p, q, u) →
        z ≤ u) := by
  refine ⟨fun rot => find_position_with_rotation_spec b store it rot, ?_, ?_⟩
  · rw [find_best_position_for_item, (best_position_fold_spec b store it _ none).1]
    constructor
    · rintro ⟨-, hall⟩ rot hrot
      exact hall rot (List.mem_range.mpr hrot)
    · intro hall
      exact ⟨rfl, fun rot hrot => hall rot (List.mem_range.mp hrot)⟩
  · intro x y z rot h
    rw [find_best_position_for_item] at h
    obtain ⟨hsrc, -, hlistz⟩ := (best_position_fold_spec b store it _ none).2 x y z rot h
    rcases hsrc with h' | h'
    · exact absurd h' (by simp)
    · exact ⟨List.mem_range.mp h'.1, h'.2,
        fun r hr p q u hpq => hlistz r (List.mem_range.mpr hr) p q u hpq⟩

/-- The item packed in the C4 witness instance. -/
def prepacked_item : Item := { id := 1, length := 1, width := 1, height := 1 }

/-- A concrete instance of C4 on `prepacked_bin` (a `2 x 1 x 1` bin holding
a unit cube at the origin): the search returns `(1,0,0)` with rotation 0,
that position is a generated corner point admitting a valid placement, and
it realizes the globally lowest `z`. -/
theorem find_best_position_spec_witness :
    find_best_position_for_item prepacked_bin prepacked_store prepacked_item =
      some (1, 0, 0, 0) ∧
    find_position_with_rotation prepacked_bin prepacked_store prepacked_item 0 =
      some (1, 0, 0) ∧
    (1, 0, 0) ∈ generate_corner_points prepacked_bin prepacked_store
        ({ prepacked_item with rotation := 0 } : Item).get_dimensions ∧
    prepacked_bin.can_fit_item_at_position prepacked_store prepacked_item 1 0 0 0 = true := by
  have h := find_best_position_spec prepacked_bin prepacked_store prepacked_item
  have hbest : find_best_position_for_item prepacked_bin prepacked_store prepacked_item =
      some (1, 0, 0, 0) := by rfl
  have h3 := h.2.2 1 0 0 0 hbest
  have h1 := (h.1 0).2 (1, 0, 0) h3.2.1
  exact ⟨hbest, h3.2.1, h1.1, h1.2.1⟩

/-! ## Claim C5: Local Search monotonicity and termination -/

theorem min_by_fitness_eq_none (fit : Solution → ℚ) :
    ∀ l, min_by_fitness fit l = none ↔ l = []
  | [] => by simp [min_by_fitness]
  | x :: rest => by
    cases h : min_by_fitness fit rest with
    | none => simp [min_by_fitness, h]
    | some m =>
      by_cases hlt : fit m < fit x <;> simp [min_by_fitness, h, hlt]

theorem min_by_fitness_spec (fit : Solution → ℚ) :
    ∀ l m, min_by_fitness fit l = some m → m ∈ l ∧ ∀ x ∈ l, fit m ≤ fit x
  | [], m => by simp [min_by_fitness]
  | x :: rest, m => by
    intro hm
    cases h : min_by_fitness fit rest with
    | none =>
      have hrest : rest = [] := (min_by_fitness_eq_none fit rest).mp h
      subst hrest
      simp only [min_by_fitness] at hm
      have : x = m := by simpa using hm
      subst this
      simp
    | some m0 =>
      obtain ⟨hmem0, hmin0⟩ := min_by_fitness_spec fit rest m0 h
      simp only [min_by_fitness, h] at hm
      by_cases hlt : fit m0 < fit x
      · rw [if_pos hlt] at hm
        have : m0 = m := by simpa using hm
        subst this
        refine ⟨List.mem_cons_of_mem _ hmem0, ?_⟩
        intro y hy
        rcases List.mem_cons.mp hy with h' | h'
        · subst h'; exact le_of_lt hlt
        · exact hmin0 y h'
      · rw [if_neg hlt] at hm
        have : x = m := by simpa using hm
        subst this
        refine ⟨List.mem_cons_self _ _, ?_⟩
        intro y hy
        rcases List.mem_cons.mp hy with h' | h'
        · subst h'; exact le_refl _
        · exact le_trans (le_of_not_lt hlt) (hmin0 y h')

theorem local_search_step_some (fit : Solution → ℚ) (cur nxt : Solution)
    (h : local_search_step fit cur = some nxt) :
    nxt ∈ all_neighbors cur ∧ fit nxt < fit cur := by
  cases hm : min_by_fitness fit (all_neighbors cur) with
  | none => simp only [local_search_step, hm, reduceCtorEq] at h
  | some bn =>
    simp only [local_search_step, hm] at h
    by_cases hlt : fit bn < fit cur
    · rw [if_pos hlt] at h
      have : bn = nxt := by simpa using h
      subst this
      exact ⟨(min_by_fitness_spec fit _ _ hm).1, hlt⟩
    · rw [if_neg hlt] at h
      exact absurd h (by simp)

theorem local_search_step_none (fit : Solution → ℚ) (cur : Solution) :
    local_search_step fit cur = none ↔
      (all_neighbors cur = [] ∨
       ∃ bn, min_by_fitness fit (all_neighbors cur) = some bn ∧
         (∀ x ∈ all_neighbors cur, fit bn ≤ fit x) ∧ ¬ fit bn < fit cur) := by
  cases hm : min_by_fitness fit (all_neighbors cur) with
  | none =>
    have hemp : all_neighbors cur = [] := (min_by_fitness_eq_none fit _).mp hm
    simp only [local_search_step, hm]
    exact iff_of_true trivial (Or.inl hemp)
  | some bn =>
    simp only [local_search_step, hm]
    by_cases hlt : fit bn < fit cur
    · rw [if_pos hlt]
      refine iff_of_false (by simp) ?_
      rintro (hemp | ⟨bn', hbn', -, hnot⟩)
      · rw [hemp] at hm
        simp [min_by_fitness] at hm
      · have : bn = bn' := by simpa using hbn'
        subst this
        exact hnot hlt
    · rw [if_neg hlt]
      exact iff_of_true rfl
        (Or.inr ⟨bn, rfl, (min_by_fitness_spec fit _ _ hm).2, hlt⟩)

theorem local_search_trace_head (fit : Solution → ℚ) :
    ∀ fuel s, (local_search_trace fit fuel s).head? = some s
  | 0, s => rfl
  | n + 1, s => by
    rw [local_search_trace]
    cases local_search_step fit s <;> rfl

theorem local_search_trace_cons (fit : Solution → ℚ) :
    ∀ fuel s, ∃ t, local_search_trace fit fuel s = s :: t
  | 0, s => ⟨[], rfl⟩
  | n + 1, s => by
    rw [local_search_trace]
    exact ⟨_, rfl⟩

theorem local_search_trace_succ_none (fit : Solution → ℚ) (n : Nat) (s : Solution)
    (h : local_search_step fit s = none) :
    local_search_trace fit (n + 1) s = [s] := by
  simp [local_search_trace, h]

theorem local_search_trace_succ_some (fit : Solution → ℚ) (n : Nat) (s nxt : Solution)
    (h : local_search_step fit s = some nxt) :
    local_search_trace fit (n + 1) s = s :: local_search_trace fit n nxt := by
  simp [local_search_trace, h]

/-- Claim C5: along `local_search_trace` (the sequence of `current`
solutions of `LocalSearch.solve`, which runs it from a copy of the initial
solution), every step moves to a generated neighbor of strictly lower
fitness — so the fitness sequence is non-increasing (strictly decreasing at
every move); the trace contains at most `max_iterations` moves; if it stops
before exhausting the iteration budget then the final solution is terminal;
and a solution is terminal exactly when it has no neighbors or the
minimum-fitness neighbor fails to strictly improve. -/
theorem local_search_trace_spec (fit : Solution → ℚ) (fuel : Nat) (s : Solution) :
    List.Chain' (fun a b => b ∈ all_neighbors a ∧ fit b < fit a)
      (local_search_trace fit fuel s) ∧
    (local_search_trace fit fuel s).length ≤ fuel + 1 ∧
    ((local_search_trace fit fuel s).length ≤ fuel →
      ∀ last, (local_search_trace fit fuel s).getLast? = some last →
        local_search_step fit last = none) ∧
    (∀ cur, local_search_step fit cur = none ↔
      (all_neighbors cur = [] ∨
       ∃ bn, min_by_fitness fit (all_neighbors cur) = some bn ∧
         (∀ x ∈ all_neighbors cur, fit bn ≤ fit x) ∧ ¬ fit bn < fit cur)) := by
  refine ⟨?_, ?_, ?_, fun cur => local_search_step_none fit cur⟩
  · induction fuel generalizing s with
    | zero => simp [local_search_trace]
    | succ n ih =>
      cases hstep : local_search_step fit s with
      | none => rw [local_search_trace_succ_none fit n s hstep]; simp
      | some nxt =>
        rw [local_search_trace_succ_some fit n s nxt hstep, List.chain'_cons']
        refine ⟨?_, ih nxt⟩
        intro y hy
        rw [local_search_trace_head fit n nxt] at hy
        have : y = nxt := by injection hy with h'; exact h'.symm
        subst this
        exact local_search_step_some fit s y hstep
  · induction fuel generalizing s with
    | zero => simp [local_search_trace]
    | succ n ih =>
      cases hstep : local_search_step fit s with
      | none => rw [local_search_trace_succ_none fit n s hstep]; simp
      | some nxt =>
        rw [local_search_trace_succ_some fit n s nxt hstep]
        simpa using ih nxt
  · induction fuel generalizing s with
    | zero =>
      intro hlen
      simp [local_search_trace] at hlen
    | succ n ih =>
      cases hstep : local_search_step fit s with
      | none =>
        rw [local_search_trace_succ_none fit n s hstep]
        intro _ last hlast
        simp only [List.getLast?_singleton] at hlast
        have : last = s := by injection hlast with h'; exact h'.symm
        subst this
        exact hstep
      | some nxt =>
        rw [local_search_trace_succ_some fit n s nxt hstep]
        intro hlen last hlast
        obtain ⟨t, ht⟩ := local_search_trace_cons fit n nxt
        rw [ht, List.getLast?_cons_cons, ← ht] at hlast
        apply ih nxt _ last hlast
        rw [ht] at hlen ⊢
        simp only [List.length_cons] at hlen ⊢
        omega

/-- The empty solution used by several witnesses: no items, no bins. -/
def empty_solution : Solution :=
  { bin_dimensions := (1, 1, 1), all_items := [], bins := [] }

/-- A concrete instance of C5: from the empty solution (which has no
neighbors), the trace under fitness `used-bins-count` is the singleton and
its last element is terminal. -/
theorem local_search_trace_spec_witness :
    (local_search_trace (fun t => (t.bins.length : ℚ)) 2 empty_solution).length ≤ 3 ∧
    local_search_step (fun t => (t.bins.length : ℚ)) empty_solution = none := by
  have h := local_search_trace_spec (fun t => (t.bins.length : ℚ)) 2 empty_solution
  refine ⟨h.2.1, ?_⟩
  exact h.2.2.1 (by decide) empty_solution (by rfl)

/-! ## Claim C10: bin ids equal list indices -/

/-- Every bin's id equals its index in the solution's bin list. -/
def bins_well_indexed (s : Solution) : Prop :=
  ∀ i (h : i < s.bins.length), (s.bins.get ⟨i, h⟩).id = i

theorem find_bin_of_indexed :
    ∀ (bs : List Bin) (off : Nat),
      (∀ k (h : k < bs.length), (bs.get ⟨k, h⟩).id = off + k) →
      ∀ i (h : i < bs.length), find_bin bs (off + i) = some (bs.get ⟨i, h⟩) := by
  intro bs
  induction bs with
  | nil => intro off _ i h; exact absurd h (by simp)
  | cons b rest ih =>
    intro off hids i h
    have hb : b.id = off := by simpa using hids 0 (by simp)
    cases i with
    | zero =>
      rw [find_bin, List.find?_cons_of_pos]
      · rfl
      · simp [hb]
    | succ j =>
      have hne : (b.id == off + (j + 1)) = false := by
        simp [hb]
      rw [find_bin, List.find?_cons_of_neg _ (by simp [hne])]
      have hrest : ∀ k (hk : k < rest.length), (rest.get ⟨k, hk⟩).id = (off + 1) + k := by
        intro k hk
        have := hids (k + 1) (by simpa using Nat.succ_lt_succ hk)
        simpa [Nat.add_assoc, Nat.add_comm 1 k] using this
      have hj : j < rest.length := by simpa using Nat.lt_of_succ_lt_succ h
      have := ih (off + 1) hrest j hj
      rw [find_bin] at this
      have harith : off + (j + 1) = (off + 1) + j := by omega
      rw [harith]
      exact this

/-- Claim C10: a fresh Solution has no bins; `add_bin` assigns the current
list length as the new bin's id, so a solution whose bins were all created
through `add_bin` has its `i`-th bin carrying id `i` (and bins are never
removed); consequently `get_bin_by_id i` is exactly the `i`-th bin of the
list — the fact that lets `get_all_rebalance_neighbors` pass list indices
directly as bin ids to `rebalance_bins`. -/
theorem add_bin_indexing :
    (∀ (dims : ℚ × ℚ × ℚ) (items : List Item),
        bins_well_indexed { bin_dimensions := dims, all_items := items, bins := [] }) ∧
    (∀ s : Solution, bins_well_indexed s →
        (s.add_bin.1.id = s.bins.length ∧ bins_well_indexed s.add_bin.2)) ∧
    (∀ s : Solution, bins_well_indexed s → ∀ i (h : i < s.bins.length),
        s.get_bin_by_id i = some (s.bins.get ⟨i, h⟩)) := by
  refine ⟨?_, ?_, ?_⟩
  · intro dims items i h
    exact absurd h (by simp)
  · intro s hwi
    refine ⟨rfl, ?_⟩
    intro i h
    have h' : i < (s.bins ++ [s.add_bin.1]).length := h
    have hgoal : s.add_bin.2.bins.get ⟨i, h⟩ = (s.bins ++ [s.add_bin.1]).get ⟨i, h'⟩ := rfl
    rw [hgoal, List.get_eq_getElem]
    by_cases hi : i < s.bins.length
    · rw [List.getElem_append_left hi]
      have := hwi i hi
      rw [List.get_eq_getElem] at this
      exact this
    · have hlen : i < s.bins.length + 1 := by
        have : (s.bins ++ [s.add_bin.1]).length = s.bins.length + 1 := by simp
        omega
      have hieq : i = s.bins.length := by omega
      rw [List.getElem_concat_length _ _ _ hieq]
      rw [hieq]
      rfl
  · intro s hwi i h
    have := find_bin_of_indexed s.bins 0 (by simpa using hwi) i h
    simpa [Solution.get_bin_by_id] using this

/-- A concrete instance of C10: the empty solution is well indexed and
stays so after `add_bin`, whose fresh bin gets id 0. -/
theorem add_bin_indexing_witness :
    empty_solution.add_bin.1.id = empty_solution.bins.length ∧
    bins_well_indexed empty_solution.add_bin.2 :=
  add_bin_indexing.2.1 empty_solution (fun i h => absurd h (by simp [empty_solution]))

/-! ## Claim C1: operator safety

The safety predicate is the claim's conclusion: in every bin, the placed
members are pairwise non-overlapping and each placed member lies within the
bin's bounds.  The well-formedness predicate `well_formed` collects the
spec's data-model invariants for the *input* solution (distinct item and
bin ids, per-bin duplicate-free and pairwise-disjoint membership, members
resolvable in the catalogue, `assigned_bin` pointing at a containing bin,
bins carrying the solution's fixed dimensions) together with input
feasibility. -/

/-- The claim's per-bin conclusion: no two members overlap (an unplaced
member never overlaps anything) and every placed member is within bounds. -/
def bin_safe (store : List Item) (b : Bin) : Prop :=
  has_overlaps_list (b.member_items store) = false ∧
  ∀ m ∈ b.member_items store, m.is_placed = true → b.is_within_bounds m = true

/-- The claim's conclusion for a whole solution. -/
def solution_safe (s : Solution) : Prop :=
  ∀ b ∈ s.bins, bin_safe s.all_items b

/-- The state invariant maintained while an operator mutates its working
copy: distinct catalogue ids, distinct bin ids, duplicate-free and pairwise
disjoint memberships, and safety of every bin. -/
def mid_inv (store : List Item) (bins : List Bin) : Prop :=
  (store.map Item.id).Nodup ∧
  (bins.map Bin.id).Nodup ∧
  (∀ b ∈ bins, b.items.Nodup) ∧
  (∀ b ∈ bins, ∀ c ∈ bins, b.id ≠ c.id → ∀ i ∈ b.items, i ∉ c.items) ∧
  (∀ b ∈ bins, bin_safe store b)

/-- Ids that are members of no bin (the pool an operator may repack). -/
def free_ids (bins : List Bin) (ids : List Nat) : Prop :=
  ∀ i ∈ ids, ∀ b ∈ bins, i ∉ b.items

/-- The spec's data-model invariants for an operator's input solution,
together with feasibility (`bin_safe` for every bin): distinct item ids,
bin ids equal to list indices (claim C10's invariant, which `add_bin`
maintains for every solution the program builds), duplicate-free
memberships resolvable in the catalogue, `assigned_bin` consistent with
membership in both directions, uniform bin dimensions, and safety. -/
def well_formed (s : Solution) : Prop :=
  (s.all_items.map Item.id).Nodup ∧
  (∀ k (h : k < s.bins.length), (s.bins.get ⟨k, h⟩).id = k) ∧
  (∀ b ∈ s.bins, b.items.Nodup) ∧
  (∀ b ∈ s.bins, ∀ i ∈ b.items, (lookup_item s.all_items i).isSome = true) ∧
  (∀ it ∈ s.all_items, ∀ bid, it.assigned_bin = some bid →
      ∃ b, b ∈ s.bins ∧ b.id = bid ∧ it.id ∈ b.items) ∧
  (∀ it ∈ s.all_items, ∀ b ∈ s.bins, it.id ∈ b.items → it.assigned_bin = some b.id) ∧
  (∀ b ∈ s.bins, b.length = s.bin_dimensions.1 ∧ b.width = s.bin_dimensions.2.1 ∧
      b.height = s.bin_dimensions.2.2) ∧
  (∀ b ∈ s.bins, bin_safe s.all_items b)

/-! ### Store primitives -/

theorem lookup_item_id {store : List Item} {j : Nat} {it : Item}
    (h : lookup_item store j = some it) : it.id = j := by
  have := List.find?_some h
  simpa using this

theorem lookup_item_mem {store : List Item} {j : Nat} {it : Item}
    (h : lookup_item store j = some it) : it ∈ store :=
  List.mem_of_find?_eq_some h

theorem lookup_item_set_item_ne {store : List Item} {it : Item} {j : Nat}
    (h : it.id ≠ j) : lookup_item (set_item store it) j = lookup_item store j := by
  induction store with
  | nil => rfl
  | cons k rest ih =>
    rw [set_item]
    by_cases hk : k.id = it.id
    · rw [if_pos (by simpa using hk)]
      rw [lookup_item, lookup_item]
      rw [List.find?_cons, List.find?_cons]
      have hkj : (k.id == j) = false := by simp [hk, h]
      have hitj : (it.id == j) = false := by simp [h]
      rw [hkj, hitj]
    · rw [if_neg (by simpa using hk)]
      rw [lookup_item, lookup_item]
      rw [List.find?_cons, List.find?_cons]
      cases hkj : (k.id == j)
      · exact ih
      · rfl

theorem lookup_item_set_item_self {store : List Item} {it : Item}
    (h : (lookup_item store it.id).isSome = true) :
    lookup_item (set_item store it) it.id = some it := by
  induction store with
  | nil => simp [lookup_item] at h
  | cons k rest ih =>
    rw [set_item]
    by_cases hk : k.id = it.id
    · rw [if_pos (by simpa using hk)]
      rw [lookup_item, List.find?_cons]
      simp
    · rw [if_neg (by simpa using hk)]
      rw [lookup_item, List.find?_cons]
      have hkne : (k.id == it.id) = false := by simp [hk]
      rw [hkne]
      apply ih
      rw [lookup_item, List.find?_cons, hkne] at h
      exact h

theorem set_item_map_id (store : List Item) (it : Item) :
    (set_item store it).map Item.id = store.map Item.id := by
  induction store with
  | nil => rfl
  | cons k rest ih =>
    rw [set_item]
    by_cases hk : k.id = it.id
    · rw [if_pos (by simpa using hk)]
      simp [hk]
    · rw [if_neg (by simpa using hk)]
      simp [ih]

theorem lookup_item_isSome_congr {store store' : List Item}
    (h : store'.map Item.id = store.map Item.id) (j : Nat) :
    (lookup_item store' j).isSome = (lookup_item store j).isSome := by
  induction store generalizing store' with
  | nil =>
    cases store' with
    | nil => rfl
    | cons k rest => simp at h
  | cons k rest ih =>
    cases store' with
    | nil => simp at h
    | cons k' rest' =>
      simp only [List.map_cons, List.cons.injEq] at h
      rw [lookup_item, lookup_item, List.find?_cons, List.find?_cons, h.1]
      cases hkj : (k.id == j)
      · exact ih h.2
      · rfl

/-! ### Congruence: a bin's members, and its safety, depend only on the
lookups of its member ids. -/

theorem filterMap_lookup_congr {store store' : List Item} :
    ∀ l : List Nat, (∀ i ∈ l, lookup_item store' i = lookup_item store i) →
      l.filterMap (lookup_item store') = l.filterMap (lookup_item store)
  | [], _ => rfl
  | i :: rest, h => by
    rw [List.filterMap_cons, List.filterMap_cons, h i (List.mem_cons_self _ _),
      filterMap_lookup_congr rest (fun j hj => h j (List.mem_cons_of_mem _ hj))]

theorem member_items_congr {store store' : List Item} {b : Bin}
    (h : ∀ i ∈ b.items, lookup_item store' i = lookup_item store i) :
    b.member_items store' = b.member_items store :=
  filterMap_lookup_congr b.items h

theorem bin_safe_congr {store store' : List Item} {b : Bin}
    (h : ∀ i ∈ b.items, lookup_item store' i = lookup_item store i)
    (hs : bin_safe store b) : bin_safe store' b := by
  unfold bin_safe at hs ⊢
  rw [member_items_congr h]
  exact hs

/-- Two bins sharing everything except the member list have the same
bounds test. -/
theorem is_within_bounds_items_irrel (b : Bin) (l : List Nat) (it : Item) :
    Bin.is_within_bounds { b with items := l } it = b.is_within_bounds it := rfl

/-! ### The overlap test is symmetric -/

theorem get_bounds_some_of_placed {it : Item} (h : it.is_placed = true) :
    ∃ bd, it.get_bounds = some bd := by
  unfold Item.is_placed at h
  unfold Item.get_bounds
  cases hp : it.position with
  | none => rw [hp] at h; simp at h
  | some p =>
    obtain ⟨x, y, z⟩ := p
    exact ⟨_, rfl⟩

theorem check_overlap_comm (a b : Item) : check_overlap a b = check_overlap b a := by
  unfold check_overlap
  by_cases hpa : a.is_placed = true
  · by_cases hpb : b.is_placed = true
    · obtain ⟨bda, hga⟩ := get_bounds_some_of_placed hpa
      obtain ⟨bdb, hgb⟩ := get_bounds_some_of_placed hpb
      obtain ⟨⟨ax1, ay1, az1⟩, ⟨ax2, ay2, az2⟩⟩ := bda
      obtain ⟨⟨bx1, by1, bz1⟩, ⟨bx2, by2, bz2⟩⟩ := bdb
      rw [if_neg (by simp [hpa, hpb]), if_neg (by simp [hpa, hpb]), hga, hgb]
      rw [show ∀ p q : Prop, ∀ hp hq, @decide p hp = @decide q hq ↔ (p ↔ q) from
        fun p q hp hq => decide_eq_decide]
      constructor
      · rintro ⟨⟨h1, h2⟩, ⟨h3, h4⟩, h5, h6⟩
        exact ⟨⟨h2, h1⟩, ⟨h4, h3⟩, ⟨h6, h5⟩⟩
      · rintro ⟨⟨h1, h2⟩, ⟨h3, h4⟩, h5, h6⟩
        exact ⟨⟨h2, h1⟩, ⟨h4, h3⟩, ⟨h6, h5⟩⟩
    · rw [if_pos (Or.inr (by simpa using hpb)), if_pos (Or.inl (by simpa using hpb))]
  · rw [if_pos (Or.inl (by simpa using hpa)), if_pos (Or.inr (by simpa using hpa))]

theorem check_overlap_unplaced_right (a b : Item) (h : b.is_placed = false) :
    check_overlap a b = false := by
  unfold check_overlap
  rw [if_pos (Or.inr (by simp [h]))]

theorem has_overlaps_list_append (l : List Item) (a : Item) :
    has_overlaps_list (l ++ [a]) =
      (has_overlaps_list l || l.any (fun x => check_overlap x a)) := by
  induction l with
  | nil => simp [has_overlaps_list]
  | cons x rest ih =>
    rw [List.cons_append, has_overlaps_list, has_overlaps_list, ih]
    simp only [List.any_append, List.any_cons, List.any_nil]
    cases check_overlap x a <;> cases has_overlaps_list rest <;>
      cases rest.any (fun y => check_overlap x y) <;>
      cases rest.any (fun y => check_overlap y a) <;> rfl

/-! ### Lemmas about `reset_item_in_store` and `Bin.clear` -/

theorem reset_item_map_id (store : List Item) (i : Nat) :
    (reset_item_in_store store i).map Item.id = store.map Item.id := by
  unfold reset_item_in_store
  cases lookup_item store i with
  | none => rfl
  | some it => exact set_item_map_id store it.reset

theorem reset_item_lookup_ne (store : List Item) (i j : Nat) (h : i ≠ j) :
    lookup_item (reset_item_in_store store i) j = lookup_item store j := by
  unfold reset_item_in_store
  cases hl : lookup_item store i with
  | none => rfl
  | some it =>
    have hid : it.id = i := lookup_item_id hl
    exact lookup_item_set_item_ne (by simpa [Item.reset, hid] using h)

theorem reset_item_lookup_self (store : List Item) (i : Nat) :
    lookup_item (reset_item_in_store store i) i = (lookup_item store i).map Item.reset := by
  unfold reset_item_in_store
  cases hl : lookup_item store i with
  | none => rw [hl]; rfl
  | some it =>
    have hid : it.id = i := lookup_item_id hl
    have hs : (lookup_item store it.reset.id).isSome = true := by
      simp [Item.reset, hid, hl]
    have hset := lookup_item_set_item_self hs
    rw [show it.reset.id = i from by simp [Item.reset, hid]] at hset
    show lookup_item (set_item store it.reset) i = some it.reset
    exact hset

theorem item_reset_idem (it : Item) : it.reset.reset = it.reset := rfl

theorem reset_fold_map_id :
    ∀ (ids : List Nat) (store : List Item),
      (ids.foldl reset_item_in_store store).map Item.id = store.map Item.id
  | [], store => rfl
  | i :: rest, store => by
    rw [List.foldl_cons, reset_fold_map_id rest, reset_item_map_id]

theorem reset_fold_lookup_not_mem :
    ∀ (ids : List Nat) (store : List Item) (j : Nat), j ∉ ids →
      lookup_item (ids.foldl reset_item_in_store store) j = lookup_item store j
  | [], _, _, _ => rfl
  | i :: rest, store, j, h => by
    rw [List.foldl_cons,
      reset_fold_lookup_not_mem rest _ j (fun hm => h (List.mem_cons_of_mem _ hm)),
      reset_item_lookup_ne store i j (fun he => h (he ▸ List.mem_cons_self _ _))]

theorem reset_fold_lookup_mem :
    ∀ (ids : List Nat) (store : List Item) (j : Nat), j ∈ ids →
      lookup_item (ids.foldl reset_item_in_store store) j =
        (lookup_item store j).map Item.reset
  | [], _, j, h => absurd h (by simp)
  | i :: rest, store, j, h => by
    rw [List.foldl_cons]
    by_cases hr : j ∈ rest
    · rw [reset_fold_lookup_mem rest _ j hr]
      by_cases hij : j = i
      · subst hij
        rw [reset_item_lookup_self]
        cases lookup_item store j <;> simp [item_reset_idem]
      · rw [reset_item_lookup_ne store i j (fun he => hij he.symm)]
    · have hij : j = i := by
        rcases List.mem_cons.mp h with h' | h'
        · exact h'
        · exact absurd h' hr
      subst hij
      rw [reset_fold_lookup_not_mem rest _ j hr, reset_item_lookup_self]

theorem clear_bin_eq (b : Bin) (store : List Item) :
    (b.clear store).1 = { b with items := [] } := rfl

theorem clear_lookup_not_mem (b : Bin) (store : List Item) (j : Nat)
    (h : j ∉ b.items) : lookup_item (b.clear store).2 j = lookup_item store j :=
  reset_fold_lookup_not_mem b.items store j h

theorem clear_lookup_mem (b : Bin) (store : List Item) (j : Nat)
    (h : j ∈ b.items) :
    lookup_item (b.clear store).2 j = (lookup_item store j).map Item.reset :=
  reset_fold_lookup_mem b.items store j h

theorem clear_map_id (b : Bin) (store : List Item) :
    (b.clear store).2.map Item.id = store.map Item.id :=
  reset_fold_map_id b.items store

/-! ### Lemmas about `set_bin` -/

theorem set_bin_map_id : ∀ (bins : List Bin) (b : Bin),
    (set_bin bins b).map Bin.id = bins.map Bin.id
  | [], _ => rfl
  | c :: rest, b => by
    rw [set_bin]
    by_cases hc : c.id = b.id
    · rw [if_pos (by simpa using hc)]
      simp [hc]
    · rw [if_neg (by simpa using hc)]
      simp [set_bin_map_id rest b]

theorem mem_set_bin : ∀ {bins : List Bin} {b c : Bin}, c ∈ set_bin bins b →
    c = b ∨ c ∈ bins := by
  intro bins
  induction bins with
  | nil => intro b c h; exact absurd h (by simp [set_bin])
  | cons k rest ih =>
    intro b c h
    rw [set_bin] at h
    by_cases hk : k.id = b.id
    · rw [if_pos (by simpa using hk)] at h
      rcases List.mem_cons.mp h with h' | h'
      · exact Or.inl h'
      · exact Or.inr (List.mem_cons_of_mem _ h')
    · rw [if_neg (by simpa using hk)] at h
      rcases List.mem_cons.mp h with h' | h'
      · subst h'; exact Or.inr (List.mem_cons_self _ _)
      · rcases ih h' with h'' | h''
        · exact Or.inl h''
        · exact Or.inr (List.mem_cons_of_mem _ h'')

theorem mem_set_bin_of_ne : ∀ {bins : List Bin} {b c : Bin}, c ∈ bins →
    c.id ≠ b.id → c ∈ set_bin bins b := by
  intro bins
  induction bins with
  | nil => intro b c h; exact absurd h (by simp)
  | cons k rest ih =>
    intro b c h hne
    rw [set_bin]
    by_cases hk : k.id = b.id
    · rw [if_pos (by simpa using hk)]
      rcases List.mem_cons.mp h with h' | h'
      · subst h'; exact absurd hk hne
      · exact List.mem_cons_of_mem _ h'
    · rw [if_neg (by simpa using hk)]
      rcases List.mem_cons.mp h with h' | h'
      · subst h'; exact List.mem_cons_self _ _
      · exact List.mem_cons_of_mem _ (ih h' hne)

theorem mem_set_bin_self : ∀ {bins : List Bin} (b x : Bin), x ∈ bins →
    x.id = b.id → b ∈ set_bin bins b := by
  intro bins
  induction bins with
  | nil => intro b x h; exact absurd h (by simp)
  | cons k rest ih =>
    intro b x h hid
    rw [set_bin]
    by_cases hk : k.id = b.id
    · rw [if_pos (by simpa using hk)]
      exact List.mem_cons_self _ _
    · rw [if_neg (by simpa using hk)]
      rcases List.mem_cons.mp h with h' | h'
      · subst h'; exact absurd hid hk
      · exact List.mem_cons_of_mem _ (ih b x h' hid)

theorem find_bin_mem {bins : List Bin} {bid : Nat} {b : Bin}
    (h : find_bin bins bid = some b) : b ∈ bins ∧ b.id = bid := by
  refine ⟨List.mem_of_find?_eq_some h, ?_⟩
  have := List.find?_some h
  simpa using this

theorem eq_of_mem_id_nodup {bins : List Bin} (hnd : (bins.map Bin.id).Nodup)
    {b c : Bin} (hb : b ∈ bins) (hc : c ∈ bins) (hid : b.id = c.id) : b = c := by
  induction bins with
  | nil => exact absurd hb (by simp)
  | cons k rest ih =>
    simp only [List.map_cons, List.nodup_cons] at hnd
    rcases List.mem_cons.mp hb with hb' | hb' <;> rcases List.mem_cons.mp hc with hc' | hc'
    · rw [hb', hc']
    · subst hb'
      exact absurd (List.mem_map.mpr ⟨c, hc', hid.symm⟩) hnd.1
    · subst hc'
      exact absurd (List.mem_map.mpr ⟨b, hb', hid⟩) hnd.1
    · exact ih hnd.2 hb' hc'

/-! ### The packing loop preserves safety -/

theorem add_item_not_mem (b : Bin) (store : List Item) (it : Item)
    (h : it.id ∉ b.items) :
    b.add_item store it = ({ b with items := b.items ++ [it.id] },
      set_item store { it with assigned_bin := some b.id }) := by
  rw [Bin.add_item, if_neg]
  simpa using h

theorem member_items_id_mem {store : List Item} {b : Bin} {m : Item}
    (h : m ∈ b.member_items store) : m.id ∈ b.items := by
  unfold Bin.member_items at h
  obtain ⟨j, hj, hl⟩ := List.mem_filterMap.mp h
  rw [lookup_item_id hl]
  exact hj

theorem check_overlap_assigned_irrel (a it : Item) (x : Option Nat) :
    check_overlap a { it with assigned_bin := x } = check_overlap a it := rfl

theorem check_overlap_assigned_irrel_left (a it : Item) (x : Option Nat) :
    check_overlap { it with assigned_bin := x } a = check_overlap it a := rfl

theorem is_within_bounds_assigned_irrel (b : Bin) (it : Item) (x : Option Nat) :
    b.is_within_bounds { it with assigned_bin := x } = b.is_within_bounds it := rfl

/-- The loop of `pack_items_in_bin`, packing a duplicate-free pool of ids
disjoint from the bin's current contents into a safe bin, keeps the bin
safe; it appends exactly the packed ids to the bin, returns a partition of
the pool, and mutates no item outside the pool. -/
theorem pack_loop_spec :
    ∀ (ids : List Nat) (b : Bin) (store : List Item),
      ids.Nodup →
      (∀ i ∈ ids, i ∉ b.items) →
      bin_safe store b →
      ((pack_loop b store ids).bin =
        { b with items := b.items ++ (pack_loop b store ids).packed }) ∧
      ((pack_loop b store ids).packed ++ (pack_loop b store ids).unpacked).Perm ids ∧
      bin_safe (pack_loop b store ids).store (pack_loop b store ids).bin ∧
      (∀ j, j ∉ ids → lookup_item (pack_loop b store ids).store j = lookup_item store j) ∧
      ((pack_loop b store ids).store.map Item.id = store.map Item.id) ∧
      (∀ j ∈ (pack_loop b store ids).unpacked,
          lookup_item (pack_loop b store ids).store j = lookup_item store j) := by
  intro ids
  induction ids with
  | nil =>
    intro b store _ _ hsafe
    refine ⟨?_, by simp [pack_loop], hsafe, fun j _ => rfl, rfl, by simp [pack_loop]⟩
    show b = { b with items := b.items ++ [] }
    simp
  | cons i rest ih =>
    intro b store hnd hdisj hsafe
    have hnd' : rest.Nodup := (List.nodup_cons.mp hnd).2
    have hir : i ∉ rest := (List.nodup_cons.mp hnd).1
    cases hli : lookup_item store i with
    | none =>
      have hr := ih b store hnd' (fun j hj => hdisj j (List.mem_cons_of_mem _ hj)) hsafe
      have hred : pack_loop b store (i :: rest) =
          { pack_loop b store rest with
            unpacked := i :: (pack_loop b store rest).unpacked } := by
        simp [pack_loop, hli]
      rw [hred]
      obtain ⟨hbin, hperm, hsafe', hframe, hmap, hunp⟩ := hr
      refine ⟨hbin, ?_, hsafe', ?_, hmap, ?_⟩
      · show ((pack_loop b store rest).packed ++
          (i :: (pack_loop b store rest).unpacked)).Perm (i :: rest)
        exact List.perm_middle.trans (hperm.cons i)
      · intro j hj
        exact hframe j (fun hm => hj (List.mem_cons_of_mem _ hm))
      · intro j hj
        rcases List.mem_cons.mp hj with h' | h'
        · subst h'
          exact hframe j (by simpa using hir)
        · exact hunp j h'
    | some it =>
      have hitid : it.id = i := lookup_item_id hli
      cases hbp : find_best_position_for_item b store it with
      | none =>
        have hr := ih b store hnd' (fun j hj => hdisj j (List.mem_cons_of_mem _ hj)) hsafe
        have hred : pack_loop b store (i :: rest) =
            { pack_loop b store rest with
              unpacked := i :: (pack_loop b store rest).unpacked } := by
          simp [pack_loop, hli, hbp]
        rw [hred]
        obtain ⟨hbin, hperm, hsafe', hframe, hmap, hunp⟩ := hr
        refine ⟨hbin, ?_, hsafe', ?_, hmap, ?_⟩
        · exact List.perm_middle.trans (hperm.cons i)
        · intro j hj
          exact hframe j (fun hm => hj (List.mem_cons_of_mem _ hm))
        · intro j hj
          rcases List.mem_cons.mp hj with h' | h'
          · subst h'
            exact hframe j (by simpa using hir)
          · exact hunp j h'
      | some v =>
        obtain ⟨x, y, z, rot⟩ := v
        have hib : i ∉ b.items := hdisj i (List.mem_cons_self _ _)
        -- the mutated item, the two store writes, and the extended bin
        set it2 : Item := { it with rotation := rot, position := some (x, y, z) } with hit2
        set it3 : Item := { it2 with assigned_bin := some b.id } with hit3
        set store1 := set_item store it2 with hstore1
        set store2 := set_item store1 it3 with hstore2
        set b1 : Bin := { b with items := b.items ++ [i] } with hb1
        have hit2id : it2.id = i := hitid
        have hit3id : it3.id = i := hitid
        have hadd : b.add_item store1 it2 = (b1, store2) := by
          rw [add_item_not_mem b store1 it2 (by rw [hit2id]; exact hib),
            hstore2, hit3, hb1, ← hit2id]
        have hred : pack_loop b store (i :: rest) =
            { pack_loop b1 store2 rest with
              packed := i :: (pack_loop b1 store2 rest).packed } := by
          simp [pack_loop, hli, hbp, hadd]
        -- store lookups after the two writes
        have hl1self : lookup_item store1 i = some it2 := by
          rw [hstore1, ← hit2id]
          exact lookup_item_set_item_self (by rw [hit2id, hli]; rfl)
        have hl2self : lookup_item store2 i = some it3 := by
          rw [hstore2, ← hit3id]
          exact lookup_item_set_item_self (by rw [hit3id]; simp [hl1self])
        have hl2ne : ∀ j, j ≠ i → lookup_item store2 j = lookup_item store j := by
          intro j hj
          rw [hstore2, lookup_item_set_item_ne (by rw [hit3id]; exact fun he => hj he.symm),
            hstore1, lookup_item_set_item_ne (by rw [hit2id]; exact fun he => hj he.symm)]
        have hmap2 : store2.map Item.id = store.map Item.id := by
          rw [hstore2, set_item_map_id, hstore1, set_item_map_id]
        -- the fit test the placement engine performed
        have hfit : b.can_fit_item_at_position store it x y z rot = true := by
          have hspec := ((find_best_position_spec b store it).2.2 x y z rot hbp).2.1
          exact ((find_position_with_rotation_spec b store it rot).2 (x, y, z) hspec).2.1
        have hfit' := hfit
        simp only [Bin.can_fit_item_at_position, Bool.and_eq_true,
          List.all_eq_true] at hfit'
        have hwithin : b.is_within_bounds it2 = true := hfit'.1
        have hnool : ∀ o ∈ b.member_items store, check_overlap it2 o = false := by
          intro o ho
          have hoid : o.id ∈ b.items := member_items_id_mem ho
          have hone : o.id ≠ it.id := by
            rw [hitid]
            intro he
            exact hib (he ▸ hoid)
          have := hfit'.2 o (List.mem_filter.mpr ⟨ho, by simpa using hone⟩)
          simpa using this
        -- members of the extended bin in the written store
        have hmem1 : ∀ j ∈ b.items, lookup_item store2 j = lookup_item store j := by
          intro j hj
          exact hl2ne j (fun he => hib (he ▸ hj))
        have hmems : b1.member_items store2 = b.member_items store ++ [it3] := by
          rw [hb1]
          show (b.items ++ [i]).filterMap (lookup_item store2) = _
          rw [List.filterMap_append]
          congr 1
          · exact filterMap_lookup_congr b.items hmem1
          · simp [hl2self]
        -- safety of the extended bin
        have hsafe1 : bin_safe store2 b1 := by
          unfold bin_safe
          rw [hmems]
          constructor
          · rw [has_overlaps_list_append]
            have h1 : has_overlaps_list (b.member_items store) = false := hsafe.1
            have h2 : (b.member_items store).any (fun m => check_overlap m it3) = false := by
              rw [List.any_eq_false]
              intro m hm
              rw [hit3, check_overlap_assigned_irrel, check_overlap_comm]
              simp [hnool m hm]
            rw [h1, h2]
            rfl
          · intro m hm hpl
            rcases List.mem_append.mp hm with h' | h'
            · have := hsafe.2 m h' hpl
              rw [hb1, is_within_bounds_items_irrel]
              exact this
            · have hm3 : m = it3 := by simpa using h'
              subst hm3
              rw [hb1, is_within_bounds_items_irrel, hit3, is_within_bounds_assigned_irrel]
              exact hwithin
        -- apply the induction hypothesis to the extended state
        have hdisj1 : ∀ j ∈ rest, j ∉ b1.items := by
          intro j hj
          rw [hb1]
          intro hm
          rcases List.mem_append.mp hm with h' | h'
          · exact hdisj j (List.mem_cons_of_mem _ hj) h'
          · have : j = i := by simpa using h'
            exact hir (this ▸ hj)
        have hr := ih b1 store2 hnd' hdisj1 hsafe1
        obtain ⟨hbin, hperm, hsafe', hframe, hmap, hunp⟩ := hr
        rw [hred]
        have hsub : ∀ j ∈ (pack_loop b1 store2 rest).unpacked, j ∈ rest := by
          intro j hj
          exact hperm.mem_iff.mp (List.mem_append.mpr (Or.inr hj))
        refine ⟨?_, ?_, hsafe', ?_, ?_, ?_⟩
        · show (pack_loop b1 store2 rest).bin =
            { b with items := b.items ++ (i :: (pack_loop b1 store2 rest).packed) }
          rw [hbin, hb1]
          simp
        · show ((i :: (pack_loop b1 store2 rest).packed) ++
            (pack_loop b1 store2 rest).unpacked).Perm (i :: rest)
          rw [List.cons_append]
          exact hperm.cons i
        · intro j hj
          have hji : j ≠ i := fun he => hj (he ▸ List.mem_cons_self _ _)
          rw [hframe j (fun hm => hj (List.mem_cons_of_mem _ hm))]
          exact hl2ne j hji
        · rw [hmap, hmap2]
        · intro j hj
          have hjr : j ∈ rest := hsub j hj
          have hji : j ≠ i := fun he => hir (he ▸ hjr)
          rw [hunp j hj]
          exact hl2ne j hji

/-! ### Under the data-model invariants, `Solution.copy` is the identity on
the modelled state (Python builds fresh objects carrying the same state;
the freshness itself is the subject of the heap model below). -/

theorem set_item_self_eq : ∀ (store : List Item) (it : Item),
    lookup_item store it.id = some it → set_item store it = store
  | [], it => by intro h; simp [lookup_item] at h
  | k :: rest, it => by
    intro h
    rw [set_item]
    by_cases hk : k.id = it.id
    · rw [if_pos (by simpa using hk)]
      rw [lookup_item, List.find?_cons_of_pos _ (by simpa using hk)] at h
      have : k = it := by simpa using h
      rw [this]
    · rw [if_neg (by simpa using hk)]
      rw [lookup_item, List.find?_cons_of_neg _ (by simpa using hk)] at h
      rw [set_item_self_eq rest it h]

theorem item_with_assigned_self {it : Item} {x : Option Nat}
    (h : it.assigned_bin = x) : { it with assigned_bin := x } = it := by
  cases it
  simp at h
  simp [h]

theorem copy_member_fold_spec (new_id : Nat) :
    ∀ (l : List Nat) (done : List Nat) (store : List Item),
      l.Nodup →
      (∀ i ∈ l, i ∉ done) →
      (∀ i ∈ l, ∃ it, lookup_item store i = some it ∧ it.assigned_bin = some new_id) →
      l.foldl (copy_member_fold new_id) (done, store) = (done ++ l, store)
  | [], done, store, _, _, _ => by simp
  | i :: rest, done, store, hnd, hdone, hptr => by
    obtain ⟨it, hit, hptr0⟩ := hptr i (List.mem_cons_self _ _)
    have hstep : copy_member_fold new_id (done, store) i = (done ++ [i], store) := by
      rw [copy_member_fold]
      show (match lookup_item store i with
        | none => (done, store)
        | some it =>
          if done.contains i then (done, store)
          else (done ++ [i], set_item store { it with assigned_bin := some new_id })) = _
      rw [hit]
      show (if done.contains i then (done, store)
        else (done ++ [i], set_item store { it with assigned_bin := some new_id })) = _
      rw [if_neg (by simpa using hdone i (List.mem_cons_self _ _))]
      rw [item_with_assigned_self hptr0,
        set_item_self_eq store it (by rw [lookup_item_id hit]; exact hit)]
    rw [List.foldl_cons, hstep,
      copy_member_fold_spec new_id rest (done ++ [i]) store (List.nodup_cons.mp hnd).2
        (by
          intro j hj hmem
          rcases List.mem_append.mp hmem with h' | h'
          · exact hdone j (List.mem_cons_of_mem _ hj) h'
          · have : j = i := by simpa using h'
            exact (List.nodup_cons.mp hnd).1 (this ▸ hj))
        (fun j hj => hptr j (List.mem_cons_of_mem _ hj))]
    simp

theorem copy_bin_fold_spec (dims : ℚ × ℚ × ℚ) :
    ∀ (bs : List Bin) (done : List Bin) (store : List Item),
      (∀ k (h : k < bs.length), (bs.get ⟨k, h⟩).id = done.length + k) →
      (∀ b ∈ bs, b.items.Nodup) →
      (∀ b ∈ bs, ∀ i ∈ b.items,
          ∃ it, lookup_item store i = some it ∧ it.assigned_bin = some b.id) →
      (∀ b ∈ bs, b.length = dims.1 ∧ b.width = dims.2.1 ∧ b.height = dims.2.2) →
      bs.foldl (copy_bin_fold dims) (done, store) = (done ++ bs, store)
  | [], done, store, _, _, _, _ => by simp
  | b :: rest, done, store, hidx, hnd, hptr, hdims => by
    have hb : b.id = done.length := by simpa using hidx 0 (by simp)
    have hinner := copy_member_fold_spec done.length b.items [] store
      (hnd b (List.mem_cons_self _ _)) (by simp)
      (by
        intro i hi
        obtain ⟨it, hit, hp⟩ := hptr b (List.mem_cons_self _ _) i hi
        exact ⟨it, hit, by rw [hp, hb]⟩)
    have hstep : copy_bin_fold dims (done, store) b = (done ++ [b], store) := by
      obtain ⟨hl, hw, hh⟩ := hdims b (List.mem_cons_self _ _)
      have hbin : (⟨done.length, dims.1, dims.2.1, dims.2.2, b.items⟩ : Bin) = b := by
        cases b
        simp at hb hl hw hh ⊢
        exact ⟨hb.symm, hl.symm, hw.symm, hh.symm⟩
      simp only [copy_bin_fold, hinner, List.nil_append]
      rw [hbin]
    rw [List.foldl_cons, hstep,
      copy_bin_fold_spec dims rest (done ++ [b]) store
        (by
          intro k hk
          have := hidx (k + 1) (by simpa using Nat.succ_lt_succ hk)
          simp only [List.get_cons_succ] at this
          rw [this]
          simp
          omega)
        (fun c hc => hnd c (List.mem_cons_of_mem _ hc))
        (fun c hc => hptr c (List.mem_cons_of_mem _ hc))
        (fun c hc => hdims c (List.mem_cons_of_mem _ hc))]
    simp

/-- Under the data-model invariants, the deep copy reproduces the same
modelled state. -/
theorem copy_eq_self {s : Solution} (h : well_formed s) : s.copy = s := by
  obtain ⟨hitems, hidx, hnd, hmem, hptr, hmemptr, hdims, hsafe⟩ := h
  unfold Solution.copy
  rw [copy_bin_fold_spec s.bin_dimensions s.bins [] s.all_items
    (by simpa using hidx)
    hnd
    (by
      intro b hb i hi
      have hs := hmem b hb i hi
      obtain ⟨it, hit⟩ := Option.isSome_iff_exists.mp hs
      refine ⟨it, hit, ?_⟩
      exact hmemptr it (lookup_item_mem hit) b hb (by rw [lookup_item_id hit]; exact hi))
    hdims]
  cases s
  simp

/-! ### Facts derived from `well_formed` -/

theorem well_formed_bins_map_id {s : Solution} (h : well_formed s) :
    s.bins.map Bin.id = List.range s.bins.length := by
  apply List.ext_get
  · simp
  · intro k h1 h2
    simp only [List.get_map, List.get_range]
    exact h.2.1 k (by simpa using h1)

theorem well_formed_bins_nodup {s : Solution} (h : well_formed s) :
    (s.bins.map Bin.id).Nodup := by
  rw [well_formed_bins_map_id h]
  exact List.nodup_range _

theorem well_formed_disjoint {s : Solution} (h : well_formed s) :
    ∀ b ∈ s.bins, ∀ c ∈ s.bins, b.id ≠ c.id → ∀ i ∈ b.items, i ∉ c.items := by
  intro b hb c hc hne i hib hic
  have hs := h.2.2.2.1 b hb i hib
  obtain ⟨it, hit⟩ := Option.isSome_iff_exists.mp hs
  have hidit : it.id = i := lookup_item_id hit
  have h1 := h.2.2.2.2.2.1 it (lookup_item_mem hit) b hb (by rw [hidit]; exact hib)
  have h2 := h.2.2.2.2.2.1 it (lookup_item_mem hit) c hc (by rw [hidit]; exact hic)
  rw [h1] at h2
  exact hne (by injection h2)

theorem well_formed_mid_inv {s : Solution} (h : well_formed s) :
    mid_inv s.all_items s.bins :=
  ⟨h.1, well_formed_bins_nodup h, h.2.2.1, well_formed_disjoint h, h.2.2.2.2.2.2.2⟩

/-! ### State-transition lemmas for the operator bodies -/

theorem mem_set_bin_precise {bins : List Bin} (hnd : (bins.map Bin.id).Nodup)
    {b0 b : Bin} (hb0 : b0 ∈ bins) (hid : b0.id = b.id) :
    ∀ c ∈ set_bin bins b, c = b ∨ (c ∈ bins ∧ c.id ≠ b.id) := by
  induction bins with
  | nil => exact absurd hb0 (by simp)
  | cons k rest ih =>
    intro c hc
    simp only [List.map_cons, List.nodup_cons] at hnd
    rw [set_bin] at hc
    by_cases hk : k.id = b.id
    · rw [if_pos (by simpa using hk)] at hc
      rcases List.mem_cons.mp hc with h' | h'
      · exact Or.inl h'
      · refine Or.inr ⟨List.mem_cons_of_mem _ h', ?_⟩
        intro he
        exact hnd.1 (List.mem_map.mpr ⟨c, h', by rw [he, hk]⟩)
    · rw [if_neg (by simpa using hk)] at hc
      rcases List.mem_cons.mp hc with h' | h'
      · subst h'
        exact Or.inr ⟨List.mem_cons_self _ _, hk⟩
      · have hb0r : b0 ∈ rest := by
          rcases List.mem_cons.mp hb0 with h'' | h''
          · exact absurd (h'' ▸ hid) hk
          · exact h''
        rcases ih hnd.2 hb0r c h' with h'' | h''
        · exact Or.inl h''
        · exact Or.inr ⟨List.mem_cons_of_mem _ h''.1, h''.2⟩

theorem bin_safe_of_no_items (store : List Item) (bb : Bin) (h : bb.items = []) :
    bin_safe store bb := by
  unfold bin_safe Bin.member_items
  rw [h]
  exact ⟨rfl, by simp⟩

/-- Clearing a bin of the state: the invariant survives, the cleared bin's
former members become free, and only they are written (to their reset
state). -/
theorem clear_state {store : List Item} {bins : List Bin} (hmid : mid_inv store bins)
    {b : Bin} (hb : b ∈ bins) :
    mid_inv (b.clear store).2 (set_bin bins (b.clear store).1) ∧
    free_ids (set_bin bins (b.clear store).1) b.items ∧
    (∀ j, j ∉ b.items → lookup_item (b.clear store).2 j = lookup_item store j) ∧
    (b.clear store).2.map Item.id = store.map Item.id ∧
    (∀ j ∈ b.items, lookup_item (b.clear store).2 j =
        (lookup_item store j).map Item.reset) := by
  obtain ⟨hsnd, hbnd, hinodup, hdisj, hsafe⟩ := hmid
  have hcid : (b.clear store).1.id = b.id := rfl
  have hprecise := mem_set_bin_precise hbnd hb hcid.symm
  refine ⟨⟨?_, ?_, ?_, ?_, ?_⟩, ?_, fun j hj => clear_lookup_not_mem b store j hj,
    clear_map_id b store, fun j hj => clear_lookup_mem b store j hj⟩
  · rw [clear_map_id]; exact hsnd
  · rw [set_bin_map_id]; exact hbnd
  · intro c hc
    rcases hprecise c hc with h' | h'
    · rw [h', clear_bin_eq]
      exact List.nodup_nil
    · exact hinodup c h'.1
  · intro c hc d hd hne i hic
    rcases hprecise c hc with h' | h' <;> rcases hprecise d hd with h'' | h''
    · rw [h', h''] at hne; exact absurd rfl hne
    · rw [h', clear_bin_eq] at hic
      exact absurd hic (by simp)
    · rw [h'', clear_bin_eq]
      simp
    · exact hdisj c h'.1 d h''.1 hne i hic
  · intro c hc
    rcases hprecise c hc with h' | h'
    · rw [h']
      exact bin_safe_of_no_items _ _ (by rw [clear_bin_eq])
    · apply bin_safe_congr _ (hsafe c h'.1)
      intro i hi
      apply clear_lookup_not_mem
      have := hdisj c h'.1 b hb (by rw [hcid] at h'; exact h'.2) i hi
      exact this
  · intro i hi c hc
    rcases hprecise c hc with h' | h'
    · rw [h', clear_bin_eq]
      simp
    · exact hdisj b hb c h'.1 (by rw [hcid] at h'; exact fun he => h'.2 he.symm) i hi

/-- Lifting `pack_loop_spec` through the optional sort. -/
theorem pack_items_in_bin_spec (b : Bin) (store : List Item) (ids : List Nat)
    (flag : Bool) (hnd : ids.Nodup) (hdisj : ∀ i ∈ ids, i ∉ b.items)
    (hsafe : bin_safe store b) :
    ((pack_items_in_bin b store ids flag).bin =
      { b with items := b.items ++ (pack_items_in_bin b store ids flag).packed }) ∧
    ((pack_items_in_bin b store ids flag).packed ++
      (pack_items_in_bin b store ids flag).unpacked).Perm ids ∧
    bin_safe (pack_items_in_bin b store ids flag).store
      (pack_items_in_bin b store ids flag).bin ∧
    (∀ j, j ∉ ids →
      lookup_item (pack_items_in_bin b store ids flag).store j = lookup_item store j) ∧
    ((pack_items_in_bin b store ids flag).store.map Item.id = store.map Item.id) ∧
    (∀ j ∈ (pack_items_in_bin b store ids flag).unpacked,
      lookup_item (pack_items_in_bin b store ids flag).store j = lookup_item store j) := by
  have hpool : (if flag then sort_desc_volume store ids else ids).Perm ids := by
    cases flag
    · simp
    · simp only [if_pos]
      exact List.perm_insertionSort _ _
  have hspec := pack_loop_spec (if flag then sort_desc_volume store ids else ids) b store
    (hpool.nodup_iff.mpr hnd)
    (fun i hi => hdisj i (hpool.mem_iff.mp hi)) hsafe
  obtain ⟨h1, h2, h3, h4, h5, h6⟩ := hspec
  exact ⟨h1, h2.trans hpool, h3, fun j hj => h4 j (fun hm => hj (hpool.mem_iff.mp hm)),
    h5, h6⟩

/-- Packing a free duplicate-free pool into a bin of the state keeps the
invariant; the unpacked remainder stays free and untouched. -/
theorem pack_state {store : List Item} {bins : List Bin} (hmid : mid_inv store bins)
    {b : Bin} (hb : b ∈ bins) (ids : List Nat) (flag : Bool) (hnd : ids.Nodup)
    (hfree : free_ids bins ids) :
    mid_inv (pack_items_in_bin b store ids flag).store
      (set_bin bins (pack_items_in_bin b store ids flag).bin) ∧
    free_ids (set_bin bins (pack_items_in_bin b store ids flag).bin)
      (pack_items_in_bin b store ids flag).unpacked ∧
    (∀ j, j ∉ ids →
      lookup_item (pack_items_in_bin b store ids flag).store j = lookup_item store j) ∧
    ((pack_items_in_bin b store ids flag).store.map Item.id = store.map Item.id) ∧
    (∀ j ∈ (pack_items_in_bin b store ids flag).unpacked,
      lookup_item (pack_items_in_bin b store ids flag).store j = lookup_item store j) ∧
    (pack_items_in_bin b store ids flag).bin.id = b.id := by
  obtain ⟨hsnd, hbnd, hinodup, hdisj, hsafe⟩ := hmid
  have hdisjb : ∀ i ∈ ids, i ∉ b.items := fun i hi => hfree i hi b hb
  obtain ⟨hbin, hperm, hsafe', hframe, hmap, hunp⟩ :=
    pack_items_in_bin_spec b store ids flag hnd hdisjb (hsafe b hb)
  have hrid : (pack_items_in_bin b store ids flag).bin.id = b.id := by rw [hbin]
  have hpacked_sub : ∀ j ∈ (pack_items_in_bin b store ids flag).packed, j ∈ ids := by
    intro j hj
    exact hperm.mem_iff.mp (List.mem_append.mpr (Or.inl hj))
  have hunp_sub : ∀ j ∈ (pack_items_in_bin b store ids flag).unpacked, j ∈ ids := by
    intro j hj
    exact hperm.mem_iff.mp (List.mem_append.mpr (Or.inr hj))
  have hpu_nodup : ((pack_items_in_bin b store ids flag).packed ++
      (pack_items_in_bin b store ids flag).unpacked).Nodup :=
    hperm.nodup_iff.mpr hnd
  have hprecise := mem_set_bin_precise hbnd hb hrid.symm
  refine ⟨⟨?_, ?_, ?_, ?_, ?_⟩, ?_, hframe, hmap, hunp, hrid⟩
  · rw [hmap]; exact hsnd
  · rw [set_bin_map_id]; exact hbnd
  · intro c hc
    rcases hprecise c hc with h' | h'
    · rw [h', hbin]
      show (b.items ++ (pack_items_in_bin b store ids flag).packed).Nodup
      rw [List.nodup_append]
      refine ⟨hinodup b hb, (List.Nodup.of_append_left hpu_nodup), ?_⟩
      intro i hi hip
      exact hfree i (hpacked_sub i hip) b hb hi
    · exact hinodup c h'.1
  · intro c hc d hd hne i hic
    rcases hprecise c hc with h' | h' <;> rcases hprecise d hd with h'' | h''
    · rw [h', h''] at hne; exact absurd rfl hne
    · rw [h', hbin] at hic
      rcases List.mem_append.mp hic with hi1 | hi1
      · exact hdisj b hb d h''.1 (fun he => h''.2 (he.symm.trans hrid.symm)) i hi1
      · exact hfree i (hpacked_sub i hi1) d h''.1
    · rw [h'', hbin]
      intro hid
      rcases List.mem_append.mp hid with hi1 | hi1
      · exact hdisj c h'.1 b hb (fun he => h'.2 (he.trans hrid.symm)) i hic hi1
      · exact (hfree i (hpacked_sub i hi1) c h'.1) hic
    · exact hdisj c h'.1 d h''.1 hne i hic
  · intro c hc
    rcases hprecise c hc with h' | h'
    · rw [h']
      exact hsafe'
    · apply bin_safe_congr _ (hsafe c h'.1)
      intro i hi
      apply hframe
      intro hm
      exact hfree i hm c h'.1 hi
  · intro i hi c hc
    rcases hprecise c hc with h' | h'
    · rw [h', hbin]
      intro hm
      rcases List.mem_append.mp hm with h1 | h1
      · exact hfree i (hunp_sub i hi) b hb h1
      · exact (List.disjoint_of_nodup_append hpu_nodup) h1 hi
    · exact hfree i (hunp_sub i hi) c h'.1

/-- Writing bins with the same id twice: the second write wins. -/
theorem set_bin_collapse : ∀ (bins : List Bin) {u v : Bin}, u.id = v.id →
    set_bin (set_bin bins u) v = set_bin bins v := by
  intro bins
  induction bins with
  | nil => intro u v h; rfl
  | cons c rest ih =>
    intro u v h
    by_cases hc : c.id = u.id
    · rw [set_bin, if_pos (by simpa using hc)]
      rw [set_bin, if_pos (by simp [h])]
      rw [set_bin, if_pos (by simp [hc.trans h])]
    · have hcv : ¬ c.id = v.id := fun he => hc (he.trans h.symm)
      rw [set_bin, if_neg (by simpa using hc)]
      rw [set_bin, if_neg (by simpa using hcv)]
      rw [set_bin, if_neg (by simpa using hcv)]
      rw [ih h]

/-- Writes to bins with different ids commute. -/
theorem set_bin_comm : ∀ (bins : List Bin) {u v : Bin}, u.id ≠ v.id →
    set_bin (set_bin bins u) v = set_bin (set_bin bins v) u := by
  intro bins
  induction bins with
  | nil => intro u v h; rfl
  | cons c rest ih =>
    intro u v h
    by_cases hcu : c.id = u.id
    · have hcv : ¬ c.id = v.id := fun he => h (hcu.symm.trans he)
      rw [set_bin, if_pos (by simpa using hcu)]
      rw [set_bin, if_neg (by simpa using h)]
      rw [set_bin, if_neg (by simpa using hcv)]
      rw [set_bin, if_pos (by simpa using hcu)]
    · by_cases hcv : c.id = v.id
      · have hvu : ¬ v.id = u.id := fun he => h he.symm
        rw [set_bin, if_neg (by simpa using hcu)]
        rw [set_bin, if_pos (by simpa using hcv)]
        rw [set_bin, if_pos (by simpa using hcv)]
        rw [set_bin, if_neg (by simpa using hvu)]
      · rw [set_bin, if_neg (by simpa using hcu)]
        rw [set_bin, if_neg (by simpa using hcv)]
        rw [set_bin, if_neg (by simpa using hcv)]
        rw [set_bin, if_neg (by simpa using hcu)]
        rw [ih h]

/-- Free ids stay free across a bin write that does not capture them. -/
theorem free_ids_set_bin {bins : List Bin} {ids : List Nat} {b : Bin}
    (h : free_ids bins ids) (hb : ∀ i ∈ ids, i ∉ b.items) :
    free_ids (set_bin bins b) ids := by
  intro i hi c hc
  rcases mem_set_bin hc with h' | h'
  · rw [h']; exact hb i hi
  · exact h i hi c h'

/-- `add_item` with a free unplaced item (the put-back path of
`consolidate_small_bins`) keeps the invariant: the new member is unplaced,
so it can neither overlap nor violate bounds. -/
theorem add_item_state {store : List Item} {bins : List Bin} (hmid : mid_inv store bins)
    {sm : Bin} (hsm : sm ∈ bins) {i : Nat} {it : Item}
    (hit : lookup_item store i = some it) (hunpl : it.is_placed = false)
    (hfree : free_ids bins [i]) :
    mid_inv (sm.add_item store it).2 (set_bin bins (sm.add_item store it).1) ∧
    (∀ j, j ≠ i → lookup_item (sm.add_item store it).2 j = lookup_item store j) ∧
    ((sm.add_item store it).2.map Item.id = store.map Item.id) ∧
    (sm.add_item store it).1.id = sm.id := by
  obtain ⟨hsnd, hbnd, hinodup, hdisj, hsafe⟩ := hmid
  have hitid : it.id = i := lookup_item_id hit
  have hfi : ∀ c ∈ bins, i ∉ c.items := fun c hc => hfree i (by simp) c hc
  have hadd := add_item_not_mem sm store it (by rw [hitid]; exact hfi sm hsm)
  set it3 : Item := { it with assigned_bin := some sm.id } with hit3
  have hit3id : it3.id = i := hitid
  have hb1 : (sm.add_item store it).1 = { sm with items := sm.items ++ [it.id] } := by
    rw [hadd]
  have hs1 : (sm.add_item store it).2 = set_item store it3 := by
    rw [hadd]
  have hlself : lookup_item (set_item store it3) i = some it3 := by
    have h0 : (lookup_item store it3.id).isSome = true := by
      rw [hit3id, hit]; rfl
    have h1 := lookup_item_set_item_self h0
    rw [hit3id] at h1
    exact h1
  have hlne : ∀ j, j ≠ i → lookup_item (set_item store it3) j = lookup_item store j := by
    intro j hj
    exact lookup_item_set_item_ne (by rw [hit3id]; exact fun he => hj he.symm)
  have hb1id : (sm.add_item store it).1.id = sm.id := by rw [hb1]
  have hprecise := mem_set_bin_precise hbnd hsm hb1id.symm
  have hit3unpl : it3.is_placed = false := hunpl
  refine ⟨⟨?_, ?_, ?_, ?_, ?_⟩, ?_, ?_, hb1id⟩
  · rw [hs1, set_item_map_id]; exact hsnd
  · rw [set_bin_map_id]; exact hbnd
  · intro c hc
    rcases hprecise c hc with h' | h'
    · rw [h', hb1]
      show (sm.items ++ [it.id]).Nodup
      rw [List.nodup_append]
      refine ⟨hinodup sm hsm, List.nodup_singleton _, ?_⟩
      intro j hj hj2
      have hji : j = it.id := by simpa using hj2
      rw [hji, hitid] at hj
      exact hfi sm hsm hj
    · exact hinodup c h'.1
  · intro c hc d hd hne j hjc
    rcases hprecise c hc with h' | h' <;> rcases hprecise d hd with h'' | h''
    · rw [h', h''] at hne; exact absurd rfl hne
    · rw [h', hb1] at hjc
      rcases List.mem_append.mp hjc with hj1 | hj1
      · exact hdisj sm hsm d h''.1 (fun he => h''.2 (he.symm.trans hb1id.symm)) j hj1
      · have hji : j = i := by simpa [hitid] using hj1
        rw [hji]
        exact hfi d h''.1
    · rw [h'', hb1]
      intro hjd
      rcases List.mem_append.mp hjd with hj1 | hj1
      · exact hdisj c h'.1 sm hsm (fun he => h'.2 (he.trans hb1id.symm)) j hjc hj1
      · have hji : j = i := by simpa [hitid] using hj1
        rw [hji] at hjc
        exact hfi c h'.1 hjc
    · exact hdisj c h'.1 d h''.1 hne j hjc
  · intro c hc
    rcases hprecise c hc with h' | h'
    · have hmems : (sm.add_item store it).1.member_items (sm.add_item store it).2 =
          sm.member_items store ++ [it3] := by
        rw [hb1, hs1]
        show (sm.items ++ [it.id]).filterMap (lookup_item (set_item store it3)) = _
        rw [List.filterMap_append]
        congr 1
        · exact filterMap_lookup_congr sm.items
            (fun j hj => hlne j (fun he => hfi sm hsm (he ▸ hj)))
        · simp [hitid, hlself]
      rw [h']
      unfold bin_safe
      rw [hmems]
      constructor
      · rw [has_overlaps_list_append, (hsafe sm hsm).1]
        have hany : (sm.member_items store).any (fun x => check_overlap x it3) = false := by
          rw [List.any_eq_false]
          intro m hm
          simp [check_overlap_unplaced_right m it3 hit3unpl]
        rw [hany]
        rfl
      · intro m hm hpl
        rcases List.mem_append.mp hm with h1 | h1
        · have hw := (hsafe sm hsm).2 m h1 hpl
          rw [hb1, is_within_bounds_items_irrel]
          exact hw
        · have hm3 : m = it3 := by simpa using h1
          rw [hm3] at hpl
          rw [hit3unpl] at hpl
          exact absurd hpl (by simp)
    · apply bin_safe_congr _ (hsafe c h'.1)
      intro j hj
      rw [hs1]
      exact hlne j (fun he => hfi c h'.1 (he ▸ hj))
  · intro j hj
    rw [hs1]
    exact hlne j hj
  · rw [hs1, set_item_map_id]

/-- Clearing two distinct bins of the state and repacking a pool drawn from
their former contents into the first: the invariant survives, ids outside
the packed list are free, and the second (still cleared) bin sits in the
bins list ready for the next pack. -/
theorem clear2_pack1_state {store : List Item} {bins : List Bin} {b1 b2 : Bin}
    {p1 : List Nat} {c1 c2 : Bin × List Item} {r1 : PackResult}
    (hmid : mid_inv store bins) (hb1 : b1 ∈ bins) (hb2 : b2 ∈ bins)
    (hne : b1.id ≠ b2.id) (hnd1 : p1.Nodup)
    (hp1 : ∀ i ∈ p1, i ∈ b1.items ∨ i ∈ b2.items)
    (hc1 : c1 = b1.clear store) (hc2 : c2 = b2.clear c1.2)
    (hr1 : r1 = pack_items_in_bin c1.1 c2.2 p1 true) :
    mid_inv r1.store (set_bin (set_bin bins r1.bin) c2.1) ∧
    (∀ i, (i ∈ b1.items ∨ i ∈ b2.items) → i ∉ r1.packed →
      ∀ c ∈ set_bin (set_bin bins r1.bin) c2.1, i ∉ c.items) ∧
    r1.unpacked.Nodup ∧
    c2.1 ∈ set_bin (set_bin bins r1.bin) c2.1 ∧
    r1.bin.id = b1.id ∧ c2.1.id = b2.id ∧
    (r1.packed ++ r1.unpacked).Perm p1 := by
  obtain ⟨hmid1, hfree1, hframe1, hmap1, hreset1⟩ := clear_state hmid hb1
  rw [← hc1] at hmid1 hfree1 hframe1 hmap1 hreset1
  have hc1id : c1.1.id = b1.id := by rw [hc1]; rfl
  have hb2m : b2 ∈ set_bin bins c1.1 :=
    mem_set_bin_of_ne hb2 (fun he => hne (he.trans hc1id).symm)
  obtain ⟨hmid2, hfree2, hframe2, hmap2, hreset2⟩ := clear_state hmid1 hb2m
  rw [← hc2] at hmid2 hfree2 hframe2 hmap2 hreset2
  have hc2id : c2.1.id = b2.id := by rw [hc2]; rfl
  have hc11m : c1.1 ∈ set_bin bins c1.1 := mem_set_bin_self _ b1 hb1 hc1id.symm
  have hc11m2 : c1.1 ∈ set_bin (set_bin bins c1.1) c2.1 :=
    mem_set_bin_of_ne hc11m (fun he => hne (hc1id.symm.trans (he.trans hc2id)))
  have hfree1' : free_ids (set_bin (set_bin bins c1.1) c2.1) b1.items :=
    free_ids_set_bin hfree1 (fun i hi => by rw [hc2, clear_bin_eq]; simp)
  have hpfree0 : ∀ i, (i ∈ b1.items ∨ i ∈ b2.items) →
      ∀ c ∈ set_bin (set_bin bins c1.1) c2.1, i ∉ c.items := by
    intro i hib c hc
    rcases hib with h' | h'
    · exact hfree1' i h' c hc
    · exact hfree2 i h' c hc
  have hfreep1 : free_ids (set_bin (set_bin bins c1.1) c2.1) p1 :=
    fun i hi => hpfree0 i (hp1 i hi)
  obtain ⟨hmid3, hfree3, hframe3, hmap3, hunp3, hr1id0⟩ :=
    pack_state hmid2 hc11m2 p1 true hnd1 hfreep1
  rw [← hr1] at hmid3 hfree3 hframe3 hmap3 hunp3 hr1id0
  have hr1id : r1.bin.id = b1.id := hr1id0.trans hc1id
  have hcr : c2.1.id ≠ r1.bin.id :=
    fun he => hne ((hr1id.symm.trans he.symm).trans hc2id)
  have halg : set_bin (set_bin (set_bin bins c1.1) c2.1) r1.bin
      = set_bin (set_bin bins r1.bin) c2.1 := by
    rw [set_bin_comm _ hcr, set_bin_collapse _ (hc1id.trans hr1id.symm)]
  rw [halg] at hmid3 hfree3
  have hc1nil : c1.1.items = [] := by rw [hc1, clear_bin_eq]
  have hsafe0 : bin_safe c2.2 c1.1 := bin_safe_of_no_items _ _ hc1nil
  obtain ⟨hbin, hperm, hs3, hs4, hs5, hs6⟩ :=
    pack_items_in_bin_spec c1.1 c2.2 p1 true hnd1
      (fun i hi => by rw [hc1nil]; simp) hsafe0
  rw [← hr1] at hbin hperm
  have hpfree : ∀ i, (i ∈ b1.items ∨ i ∈ b2.items) → i ∉ r1.packed →
      ∀ c ∈ set_bin (set_bin bins r1.bin) c2.1, i ∉ c.items := by
    intro i hib hip c hc
    rw [← halg] at hc
    rcases mem_set_bin hc with h' | h'
    · have hnot : i ∉ c1.1.items ++ r1.packed := by
        intro hmem
        rcases List.mem_append.mp hmem with h1 | h1
        · rw [hc1nil] at h1
          simp at h1
        · exact hip h1
      rw [h', hbin]
      exact hnot
    · exact hpfree0 i hib c h'
  have hc21m : c2.1 ∈ set_bin (set_bin bins c1.1) c2.1 :=
    mem_set_bin_self _ b2 hb2m hc2id.symm
  have hc21m2 : c2.1 ∈ set_bin (set_bin bins r1.bin) c2.1 := by
    rw [← halg]
    exact mem_set_bin_of_ne hc21m hcr
  exact ⟨hmid3, hpfree, (hperm.nodup_iff.mpr hnd1).of_append_right,
    hc21m2, hr1id, hc2id, hperm⟩

/-- The full two-bin repack (clear both, pack a pool into each): the
invariant survives into the final bins list as the operators write it. -/
theorem clear2_pack2_state {store : List Item} {bins : List Bin} {b1 b2 : Bin}
    {p1 p2 : List Nat} {c1 c2 : Bin × List Item} {r1 r2 : PackResult}
    (hmid : mid_inv store bins) (hb1 : b1 ∈ bins) (hb2 : b2 ∈ bins)
    (hne : b1.id ≠ b2.id) (hnd1 : p1.Nodup) (hnd2 : p2.Nodup)
    (hp1 : ∀ i ∈ p1, i ∈ b1.items ∨ i ∈ b2.items)
    (hc1 : c1 = b1.clear store) (hc2 : c2 = b2.clear c1.2)
    (hr1 : r1 = pack_items_in_bin c1.1 c2.2 p1 true)
    (hr2 : r2 = pack_items_in_bin c2.1 r1.store p2 true)
    (hp2 : ∀ i ∈ p2, (i ∈ b1.items ∨ i ∈ b2.items) ∧ (i ∉ p1 ∨ i ∈ r1.unpacked)) :
    mid_inv r2.store (set_bin (set_bin bins r1.bin) r2.bin) := by
  obtain ⟨hmid3, hpfree, hundnd, hc21m, hr1id, hc2id, hperm⟩ :=
    clear2_pack1_state hmid hb1 hb2 hne hnd1 hp1 hc1 hc2 hr1
  have hpu_nd : (r1.packed ++ r1.unpacked).Nodup := hperm.nodup_iff.mpr hnd1
  have hfreep2 : free_ids (set_bin (set_bin bins r1.bin) c2.1) p2 := by
    intro i hi
    refine hpfree i (hp2 i hi).1 ?_
    rcases (hp2 i hi).2 with h' | h'
    · exact fun hp => h' (hperm.mem_iff.mp (List.mem_append.mpr (Or.inl hp)))
    · exact fun hp => (List.disjoint_of_nodup_append hpu_nd) hp h'
  obtain ⟨hmid4, hf4, hf5, hf6, hf7, hr2id⟩ := pack_state hmid3 hc21m p2 true hnd2 hfreep2
  rw [← hr2] at hmid4 hr2id
  rw [set_bin_collapse _ hr2id.symm] at hmid4
  exact hmid4

/-- Resolving an assigned item's bin pointer under `well_formed`: the bin
found by id contains the item. -/
theorem assigned_item_bin {s : Solution} (hWF : well_formed s) {i a : Nat} {it : Item}
    (hit : lookup_item s.all_items i = some it) (ha : it.assigned_bin = some a)
    {b : Bin} (hb : find_bin s.bins a = some b) :
    b ∈ s.bins ∧ b.id = a ∧ i ∈ b.items := by
  obtain ⟨hbm, hbid⟩ := find_bin_mem hb
  obtain ⟨b', hb'm, hb'id, hiin⟩ := hWF.2.2.2.2.1 it (lookup_item_mem hit) a ha
  have hbb : b' = b :=
    eq_of_mem_id_nodup (well_formed_bins_nodup hWF) hb'm hbm (hb'id.trans hbid.symm)
  rw [hbb] at hiin
  rw [lookup_item_id hit] at hiin
  exact ⟨hbm, hbid, hiin⟩

/-- `swap_items` preserves the safety invariants (claim C1, swap case). -/
theorem swap_items_safe {s : Solution} (hWF : well_formed s) (i1 i2 : Nat) {out : Solution}
    (hout : swap_items s i1 i2 = some out) : solution_safe out := by
  unfold swap_items at hout
  rw [copy_eq_self hWF] at hout
  cases h1 : s.get_item_by_id i1 with
  | none => exact absurd hout (by simp [h1])
  | some item1 =>
  cases h2 : s.get_item_by_id i2 with
  | none => exact absurd hout (by simp [h1, h2])
  | some item2 =>
  simp only [h1, h2] at hout
  by_cases hg1 : ¬ item1.is_assigned ∨ ¬ item2.is_assigned
  · rw [if_pos hg1] at hout
    exact absurd hout (by simp)
  rw [if_neg hg1] at hout
  by_cases hg2 : item1.assigned_bin = item2.assigned_bin
  · rw [if_pos hg2] at hout
    exact absurd hout (by simp)
  rw [if_neg hg2] at hout
  push_neg at hg1
  unfold Item.is_assigned at hg1
  obtain ⟨a1, ha1⟩ := Option.isSome_iff_exists.mp hg1.1
  obtain ⟨a2, ha2⟩ := Option.isSome_iff_exists.mp hg1.2
  simp only [ha1, ha2] at hout
  cases hb1 : s.get_bin_by_id a1 with
  | none => exact absurd hout (by simp [hb1])
  | some bin1 =>
  cases hb2 : s.get_bin_by_id a2 with
  | none => exact absurd hout (by simp [hb1, hb2])
  | some bin2 =>
  simp only [hb1, hb2] at hout
  split at hout
  · exact absurd hout (by simp)
  injection hout with hout
  subst hout
  have hmid0 := well_formed_mid_inv hWF
  obtain ⟨hb1m, hb1id, h1in0⟩ := assigned_item_bin hWF h1 ha1 hb1
  obtain ⟨hb2m, hb2id, h2in0⟩ := assigned_item_bin hWF h2 ha2 hb2
  have hid1 : item1.id = i1 := lookup_item_id h1
  have hid2 : item2.id = i2 := lookup_item_id h2
  have h1in : item1.id ∈ bin1.items := by rw [hid1]; exact h1in0
  have h2in : item2.id ∈ bin2.items := by rw [hid2]; exact h2in0
  have hneq : bin1.id ≠ bin2.id := by
    rw [hb1id, hb2id]
    intro he
    exact hg2 (by rw [ha1, ha2, he])
  have hdisj := well_formed_disjoint hWF
  have h1nin2 : item1.id ∉ bin2.items := hdisj bin1 hb1m bin2 hb2m hneq item1.id h1in
  have h2nin1 : item2.id ∉ bin1.items := hdisj bin2 hb2m bin1 hb1m hneq.symm item2.id h2in
  have hnd_b1 : bin1.items.Nodup := hWF.2.2.1 bin1 hb1m
  have hnd_b2 : bin2.items.Nodup := hWF.2.2.1 bin2 hb2m
  have hp1 : ∀ i ∈ bin1.items.filter (fun i => i ≠ item1.id) ++ [item2.id],
      i ∈ bin1.items ∨ i ∈ bin2.items := by
    intro i hi
    rcases List.mem_append.mp hi with h' | h'
    · exact Or.inl (List.mem_of_mem_filter h')
    · rw [List.mem_singleton.mp h']
      exact Or.inr h2in
  have hnd1 : (bin1.items.filter (fun i => i ≠ item1.id) ++ [item2.id]).Nodup := by
    rw [List.nodup_append]
    refine ⟨hnd_b1.filter _, List.nodup_singleton _, ?_⟩
    intro j hj hj2
    have hje : j = item2.id := by simpa using hj2
    rw [hje] at hj
    exact h2nin1 (List.mem_of_mem_filter hj)
  have hnd2 : (bin2.items.filter (fun i => i ≠ item2.id) ++ [item1.id]).Nodup := by
    rw [List.nodup_append]
    refine ⟨hnd_b2.filter _, List.nodup_singleton _, ?_⟩
    intro j hj hj2
    have hje : j = item1.id := by simpa using hj2
    rw [hje] at hj
    exact h1nin2 (List.mem_of_mem_filter hj)
  have hp2 : ∀ i ∈ bin2.items.filter (fun i => i ≠ item2.id) ++ [item1.id],
      (i ∈ bin1.items ∨ i ∈ bin2.items) ∧
      (i ∉ (bin1.items.filter (fun i => i ≠ item1.id) ++ [item2.id]) ∨
        i ∈ (pack_items_in_bin (bin1.clear s.all_items).1
          (bin2.clear (bin1.clear s.all_items).2).2
          (bin1.items.filter (fun i => i ≠ item1.id) ++ [item2.id]) true).unpacked) := by
    intro i hi
    rcases List.mem_append.mp hi with h' | h'
    · refine ⟨Or.inr (List.mem_of_mem_filter h'), Or.inl ?_⟩
      intro hip
      rcases List.mem_append.mp hip with hq | hq
      · exact (hdisj bin2 hb2m bin1 hb1m hneq.symm i (List.mem_of_mem_filter h'))
          (List.mem_of_mem_filter hq)
      · have hif := List.mem_filter.mp h'
        have hie : i = item2.id := by simpa using hq
        rw [hie] at hif
        simp at hif
    · have hie : i = item1.id := by simpa using h'
      subst hie
      refine ⟨Or.inl h1in, Or.inl ?_⟩
      intro hip
      rcases List.mem_append.mp hip with hq | hq
      · have hf := List.mem_filter.mp hq
        simp at hf
      · have hee : item1.id = item2.id := by simpa using hq
        exact h1nin2 (by rw [hee]; exact h2in)
  intro b hb
  exact (clear2_pack2_state hmid0 hb1m hb2m hneq hnd1 hnd2 hp1
    rfl rfl rfl rfl hp2).2.2.2.2 b hb

/-- `move_item` preserves the safety invariants (claim C1, move case). -/
theorem move_item_safe {s : Solution} (hWF : well_formed s) (iid tid : Nat) {out : Solution}
    (hout : move_item s iid tid = some out) : solution_safe out := by
  unfold move_item at hout
  rw [copy_eq_self hWF] at hout
  cases h1 : s.get_item_by_id iid with
  | none => exact absurd hout (by simp [h1])
  | some item =>
  simp only [h1] at hout
  by_cases hg1 : ¬ item.is_assigned
  · rw [if_pos hg1] at hout
    exact absurd hout (by simp)
  rw [if_neg hg1] at hout
  by_cases hg2 : item.assigned_bin = some tid
  · rw [if_pos hg2] at hout
    exact absurd hout (by simp)
  rw [if_neg hg2] at hout
  push_neg at hg1
  unfold Item.is_assigned at hg1
  obtain ⟨ab, hab⟩ := Option.isSome_iff_exists.mp hg1
  cases hbt : s.get_bin_by_id tid with
  | none => exact absurd hout (by simp [hbt])
  | some tbin =>
  simp only [hbt, hab] at hout
  cases hbo : s.get_bin_by_id ab with
  | none => exact absurd hout (by simp [hbo])
  | some obin =>
  simp only [hbo] at hout
  split at hout
  · exact absurd hout (by simp)
  injection hout with hout
  subst hout
  have hmid0 := well_formed_mid_inv hWF
  obtain ⟨hobm, hobid, hin0⟩ := assigned_item_bin hWF h1 hab hbo
  obtain ⟨htm, htid⟩ := find_bin_mem hbt
  have hid : item.id = iid := lookup_item_id h1
  have hin : item.id ∈ obin.items := by rw [hid]; exact hin0
  have hneq : obin.id ≠ tbin.id := by
    rw [hobid, htid]
    intro he
    exact hg2 (by rw [hab, he])
  have hdisj := well_formed_disjoint hWF
  have hnin : item.id ∉ tbin.items := hdisj obin hobm tbin htm hneq item.id hin
  have hnd_ob : obin.items.Nodup := hWF.2.2.1 obin hobm
  have hnd_tb : tbin.items.Nodup := hWF.2.2.1 tbin htm
  have hp1 : ∀ i ∈ obin.items.filter (fun i => i ≠ item.id),
      i ∈ obin.items ∨ i ∈ tbin.items :=
    fun i hi => Or.inl (List.mem_of_mem_filter hi)
  have hnd1 : (obin.items.filter (fun i => i ≠ item.id)).Nodup := hnd_ob.filter _
  have hnd2 : (tbin.items ++ [item.id]).Nodup := by
    rw [List.nodup_append]
    refine ⟨hnd_tb, List.nodup_singleton _, ?_⟩
    intro j hj hj2
    have hje : j = item.id := by simpa using hj2
    rw [hje] at hj
    exact hnin hj
  have hp2 : ∀ i ∈ tbin.items ++ [item.id],
      (i ∈ obin.items ∨ i ∈ tbin.items) ∧
      (i ∉ obin.items.filter (fun i => i ≠ item.id) ∨
        i ∈ (pack_items_in_bin (obin.clear s.all_items).1
          (tbin.clear (obin.clear s.all_items).2).2
          (obin.items.filter (fun i => i ≠ item.id)) true).unpacked) := by
    intro i hi
    rcases List.mem_append.mp hi with h' | h'
    · refine ⟨Or.inr h', Or.inl ?_⟩
      intro hip
      exact (hdisj tbin htm obin hobm hneq.symm i h') (List.mem_of_mem_filter hip)
    · have hie : i = item.id := by simpa using h'
      subst hie
      refine ⟨Or.inl hin, Or.inl ?_⟩
      intro hip
      have hf := List.mem_filter.mp hip
      simp at hf
  intro b hb
  exact (clear2_pack2_state hmid0 hobm htm hneq hnd1 hnd2 hp1
    rfl rfl rfl rfl hp2).2.2.2.2 b hb

/-- `rebalance_bins` preserves the safety invariants (claim C1, rebalance
case). -/
theorem rebalance_bins_safe {s : Solution} (hWF : well_formed s) (b1id b2id : Nat)
    {out : Solution} (hout : rebalance_bins s b1id b2id = some out) :
    solution_safe out := by
  unfold rebalance_bins at hout
  rw [copy_eq_self hWF] at hout
  cases hb1 : s.get_bin_by_id b1id with
  | none => exact absurd hout (by simp [hb1])
  | some nb1 =>
  cases hb2 : s.get_bin_by_id b2id with
  | none => exact absurd hout (by simp [hb1, hb2])
  | some nb2 =>
  simp only [hb1, hb2] at hout
  by_cases hg : |nb1.get_volume_utilization s.all_items -
      nb2.get_volume_utilization s.all_items| < 20
  · rw [if_pos hg] at hout
    exact absurd hout (by simp)
  rw [if_neg hg] at hout
  obtain ⟨hb1m, hb1id⟩ := find_bin_mem hb1
  obtain ⟨hb2m, hb2id⟩ := find_bin_mem hb2
  have hneq : nb1.id ≠ nb2.id := by
    intro he
    have h12 : b1id = b2id := by rw [← hb1id, ← hb2id, he]
    rw [h12] at hb1
    rw [hb1] at hb2
    have hnb : nb1 = nb2 := by injection hb2
    rw [hnb] at hg
    exact hg (by rw [sub_self, abs_zero]; norm_num)
  have hdisj := well_formed_disjoint hWF
  have hnd1 : (nb1.items ++ nb2.items).Nodup := by
    rw [List.nodup_append]
    exact ⟨hWF.2.2.1 nb1 hb1m, hWF.2.2.1 nb2 hb2m,
      fun j hj hj2 => hdisj nb1 hb1m nb2 hb2m hneq j hj hj2⟩
  have hp1 : ∀ i ∈ nb1.items ++ nb2.items, i ∈ nb1.items ∨ i ∈ nb2.items :=
    fun i hi => List.mem_append.mp hi
  by_cases hemp : (pack_items_in_bin (nb1.clear s.all_items).1
      (nb2.clear (nb1.clear s.all_items).2).2 (nb1.items ++ nb2.items) true).unpacked.isEmpty
  · rw [if_pos hemp] at hout
    injection hout with hout
    subst hout
    intro b hb
    exact (clear2_pack1_state (well_formed_mid_inv hWF) hb1m hb2m hneq hnd1 hp1
      rfl rfl rfl).1.2.2.2.2 b hb
  · rw [if_neg hemp] at hout
    injection hout with hout
    subst hout
    obtain ⟨hmid3, hpfree, hundnd, hc21m, hr1id, hc2id, hperm⟩ :=
      clear2_pack1_state (well_formed_mid_inv hWF) hb1m hb2m hneq hnd1 hp1 rfl rfl rfl
    have hp2 : ∀ i ∈ (pack_items_in_bin (nb1.clear s.all_items).1
        (nb2.clear (nb1.clear s.all_items).2).2 (nb1.items ++ nb2.items) true).unpacked,
        (i ∈ nb1.items ∨ i ∈ nb2.items) ∧
        (i ∉ (nb1.items ++ nb2.items) ∨
          i ∈ (pack_items_in_bin (nb1.clear s.all_items).1
            (nb2.clear (nb1.clear s.all_items).2).2
            (nb1.items ++ nb2.items) true).unpacked) :=
      fun i hi => ⟨List.mem_append.mp (hperm.mem_iff.mp (List.mem_append.mpr (Or.inr hi))),
        Or.inr hi⟩
    intro b hb
    exact (clear2_pack2_state (well_formed_mid_inv hWF) hb1m hb2m hneq hnd1 hundnd hp1
      rfl rfl rfl rfl hp2).2.2.2.2 b hb

/-- `merge_bins_aggressive` preserves the safety invariants (claim C1,
merge case). -/
theorem merge_bins_safe {s : Solution} (hWF : well_formed s) (b1id b2id : Nat)
    {out : Solution} (hout : merge_bins_aggressive s b1id b2id = some out) :
    solution_safe out := by
  unfold merge_bins_aggressive at hout
  rw [copy_eq_self hWF] at hout
  cases hb1 : s.get_bin_by_id b1id with
  | none => exact absurd hout (by simp [hb1])
  | some nb1 =>
  cases hb2 : s.get_bin_by_id b2id with
  | none => exact absurd hout (by simp [hb1, hb2])
  | some nb2 =>
  simp only [hb1, hb2] at hout
  by_cases hneq0 : nb1.id = nb2.id
  · rw [if_pos hneq0] at hout
    exact absurd hout (by simp)
  rw [if_neg hneq0] at hout
  by_cases hgv : nb1.get_used_volume s.all_items + nb2.get_used_volume s.all_items >
      nb1.get_volume * (3 / 2)
  · rw [if_pos hgv] at hout
    exact absurd hout (by simp)
  rw [if_neg hgv] at hout
  obtain ⟨hb1m, hb1id⟩ := find_bin_mem hb1
  obtain ⟨hb2m, hb2id⟩ := find_bin_mem hb2
  have hneq : nb1.id ≠ nb2.id := hneq0
  have hdisj := well_formed_disjoint hWF
  have hnd1 : (nb1.items ++ nb2.items).Nodup := by
    rw [List.nodup_append]
    exact ⟨hWF.2.2.1 nb1 hb1m, hWF.2.2.1 nb2 hb2m,
      fun j hj hj2 => hdisj nb1 hb1m nb2 hb2m hneq j hj hj2⟩
  have hp1 : ∀ i ∈ nb1.items ++ nb2.items, i ∈ nb1.items ∨ i ∈ nb2.items :=
    fun i hi => List.mem_append.mp hi
  have hfin : solution_safe (⟨s.bin_dimensions,
      (pack_items_in_bin (nb1.clear s.all_items).1
        (nb2.clear (nb1.clear s.all_items).2).2 (nb1.items ++ nb2.items) true).store,
      set_bin (set_bin s.bins (nb2.clear (nb1.clear s.all_items).2).1)
        (pack_items_in_bin (nb1.clear s.all_items).1
          (nb2.clear (nb1.clear s.all_items).2).2
          (nb1.items ++ nb2.items) true).bin⟩ : Solution) := by
    obtain ⟨hmid3, hpfree, hundnd, hc21m, hr1id, hc2id, hperm⟩ :=
      clear2_pack1_state (well_formed_mid_inv hWF) hb1m hb2m hneq hnd1 hp1 rfl rfl rfl
    have hcomm : set_bin (set_bin s.bins
          (pack_items_in_bin (nb1.clear s.all_items).1
            (nb2.clear (nb1.clear s.all_items).2).2
            (nb1.items ++ nb2.items) true).bin)
          (nb2.clear (nb1.clear s.all_items).2).1
        = set_bin (set_bin s.bins (nb2.clear (nb1.clear s.all_items).2).1)
          (pack_items_in_bin (nb1.clear s.all_items).1
            (nb2.clear (nb1.clear s.all_items).2).2
            (nb1.items ++ nb2.items) true).bin :=
      set_bin_comm _ (fun he => hneq ((hr1id.symm.trans he).trans hc2id))
    rw [hcomm] at hmid3
    intro b hb
    exact hmid3.2.2.2.2 b hb
  by_cases he1 : (pack_items_in_bin (nb1.clear s.all_items).1
      (nb2.clear (nb1.clear s.all_items).2).2 (nb1.items ++ nb2.items) true).unpacked = []
  · rw [if_pos he1] at hout
    injection hout with hout
    subst hout
    exact hfin
  · rw [if_neg he1] at hout
    by_cases he2 : ((pack_items_in_bin (nb1.clear s.all_items).1
        (nb2.clear (nb1.clear s.all_items).2).2
        (nb1.items ++ nb2.items) true).packed.length : ℚ) ≥
        (((nb1.items ++ nb2.items).length : ℚ)) * (4 / 5)
    · rw [if_pos he2] at hout
      injection hout with hout
      subst hout
      exact hfin
    · rw [if_neg he2] at hout
      exact absurd hout (by simp)

/-- The inner loop of `consolidate_small_bins` keeps the invariant; when the
item was not placed it stays free and untouched, and other free ids stay
free and untouched. -/
theorem consolidate_try_bins_state (sid i : Nat) :
    ∀ (order : List Nat) (store : List Item) (bins : List Bin),
      mid_inv store bins →
      (∀ b ∈ bins, i ∉ b.items) →
      mid_inv (consolidate_try_bins sid i order store bins).1
        (consolidate_try_bins sid i order store bins).2.1 ∧
      ((consolidate_try_bins sid i order store bins).2.2 = false →
        (∀ b ∈ (consolidate_try_bins sid i order store bins).2.1, i ∉ b.items) ∧
        lookup_item (consolidate_try_bins sid i order store bins).1 i =
          lookup_item store i) ∧
      (∀ j, j ≠ i → (∀ b ∈ bins, j ∉ b.items) →
        (∀ b ∈ (consolidate_try_bins sid i order store bins).2.1, j ∉ b.items) ∧
        lookup_item (consolidate_try_bins sid i order store bins).1 j =
          lookup_item store j) := by
  intro order
  induction order with
  | nil =>
    intro store bins hmid hfree
    exact ⟨hmid, fun _ => ⟨hfree, rfl⟩, fun j hj hjf => ⟨hjf, rfl⟩⟩
  | cons bid rest ih =>
    intro store bins hmid hfree
    cases hfb : find_bin bins bid with
    | none =>
      have heq : consolidate_try_bins sid i (bid :: rest) store bins =
          consolidate_try_bins sid i rest store bins := by
        simp only [consolidate_try_bins, hfb]
      rw [heq]
      exact ih store bins hmid hfree
    | some b =>
      obtain ⟨hbm, hbid⟩ := find_bin_mem hfb
      by_cases hgd : bid ≠ sid ∧ ¬ b.is_empty
      · simp only [consolidate_try_bins, hfb]
        rw [if_pos hgd]
        set R := pack_items_in_bin (b.clear store).1 (b.clear store).2
          (b.items ++ [i]) true with hR
        obtain ⟨hmid1, hfree1, hframe1, hmap1, hreset1⟩ := clear_state hmid hbm
        have hnd_pool : (b.items ++ [i]).Nodup := by
          rw [List.nodup_append]
          refine ⟨hmid.2.2.1 b hbm, List.nodup_singleton _, ?_⟩
          intro j hj hj2
          have hje : j = i := by simpa using hj2
          rw [hje] at hj
          exact hfree b hbm hj
        have hc1m : (b.clear store).1 ∈ set_bin bins (b.clear store).1 :=
          mem_set_bin_self _ b hbm rfl
        have hfreepool : free_ids (set_bin bins (b.clear store).1) (b.items ++ [i]) := by
          intro j hj c hc
          rcases List.mem_append.mp hj with h' | h'
          · exact hfree1 j h' c hc
          · have hje : j = i := by simpa using h'
            rw [hje]
            rcases mem_set_bin hc with hcc | hcc
            · rw [hcc, clear_bin_eq]; simp
            · exact hfree c hcc
        obtain ⟨hmid2, hfree2, hframe2, hmap2, hunp2, hrid⟩ :=
          pack_state hmid1 hc1m (b.items ++ [i]) true hnd_pool hfreepool
        rw [← hR] at hmid2 hfree2 hframe2 hmap2 hunp2 hrid
        rw [set_bin_collapse _ hrid.symm] at hmid2 hfree2
        have hsafe0 : bin_safe (b.clear store).2 (b.clear store).1 :=
          bin_safe_of_no_items _ _ (by rw [clear_bin_eq])
        obtain ⟨hbine, hperm, hs3, hs4, hs5, hs6⟩ :=
          pack_items_in_bin_spec (b.clear store).1 (b.clear store).2 (b.items ++ [i]) true
            hnd_pool (fun j hj => by rw [clear_bin_eq]; simp) hsafe0
        rw [← hR] at hbine hperm
        have hrbin_items : ∀ j, j ∈ R.bin.items → j ∈ R.packed := by
          intro j hj
          rw [hbine] at hj
          have hj2 : j ∈ (b.clear store).1.items ++ R.packed := hj
          rcases List.mem_append.mp hj2 with h' | h'
          · rw [clear_bin_eq] at h'
            simp at h'
          · exact h'
        by_cases hip : i ∈ R.packed
        · rw [if_pos hip]
          refine ⟨hmid2, ?_, ?_⟩
          · intro hff
            exact absurd hff (by simp)
          · intro j hj hjf
            have hnp : j ∉ b.items ++ [i] := by
              intro hm
              rcases List.mem_append.mp hm with h' | h'
              · exact hjf b hbm h'
              · exact hj (by simpa using h')
            constructor
            · intro c hc
              rcases mem_set_bin hc with hcc | hcc
              · rw [hcc]
                intro hjc
                have hjp := hrbin_items j hjc
                exact hnp (hperm.mem_iff.mp (List.mem_append.mpr (Or.inl hjp)))
              · exact hjf c hcc
            · rw [hframe2 j hnp, hframe1 j (fun hm => hnp (List.mem_append.mpr (Or.inl hm)))]
        · rw [if_neg hip]
          have hiu : i ∈ R.unpacked := by
            have hi0 : i ∈ b.items ++ [i] := List.mem_append.mpr (Or.inr (by simp))
            rcases List.mem_append.mp (hperm.mem_iff.mpr hi0) with h' | h'
            · exact absurd h' hip
            · exact h'
          have hfree' : ∀ c ∈ set_bin bins R.bin, i ∉ c.items := by
            intro c hc
            rcases mem_set_bin hc with hcc | hcc
            · rw [hcc]
              intro hic
              exact hip (hrbin_items i hic)
            · exact hfree c hcc
          obtain ⟨ihmid, ihfalse, ihframe⟩ := ih R.store (set_bin bins R.bin) hmid2 hfree'
          refine ⟨ihmid, ?_, ?_⟩
          · intro hff
            refine ⟨(ihfalse hff).1, ?_⟩
            rw [(ihfalse hff).2, hunp2 i hiu, hframe1 i (hfree b hbm)]
          · intro j hj hjf
            have hnp : j ∉ b.items ++ [i] := by
              intro hm
              rcases List.mem_append.mp hm with h' | h'
              · exact hjf b hbm h'
              · exact hj (by simpa using h')
            have hjf' : ∀ c ∈ set_bin bins R.bin, j ∉ c.items := by
              intro c hc
              rcases mem_set_bin hc with hcc | hcc
              · rw [hcc]
                intro hjc
                exact hnp (hperm.mem_iff.mp (List.mem_append.mpr (Or.inl (hrbin_items j hjc))))
              · exact hjf c hcc
            refine ⟨(ihframe j hj hjf').1, ?_⟩
            rw [(ihframe j hj hjf').2, hframe2 j hnp,
              hframe1 j (fun hm => hnp (List.mem_append.mpr (Or.inl hm)))]
      · have heq : consolidate_try_bins sid i (bid :: rest) store bins =
            consolidate_try_bins sid i rest store bins := by
          simp only [consolidate_try_bins, hfb]
          rw [if_neg hgd]
        rw [heq]
        exact ih store bins hmid hfree

/-- The outer loop of `consolidate_small_bins` keeps the invariant, given
that the relocated ids are distinct, free, and unplaced. -/
theorem consolidate_loop_state (sid : Nat) (order : List Nat) :
    ∀ (rel : List Nat) (store : List Item) (bins : List Bin),
      mid_inv store bins →
      rel.Nodup →
      (∀ j ∈ rel, ∀ b ∈ bins, j ∉ b.items) →
      (∀ j ∈ rel, ∀ it, lookup_item store j = some it → it.is_placed = false) →
      mid_inv (consolidate_loop sid order rel store bins).1
        (consolidate_loop sid order rel store bins).2 := by
  intro rel
  induction rel with
  | nil =>
    intro store bins hmid _ _ _
    exact hmid
  | cons i rest ih =>
    intro store bins hmid hnd hfree hup
    obtain ⟨tmid, tfalse, tframe⟩ :=
      consolidate_try_bins_state sid i order store bins hmid
        (fun b hb => hfree i (by simp) b hb)
    simp only [consolidate_loop]
    set T := consolidate_try_bins sid i order store bins with hT
    have hinr : i ∉ rest := (List.nodup_cons.mp hnd).1
    have hnd' : rest.Nodup := (List.nodup_cons.mp hnd).2
    have hjne : ∀ j ∈ rest, j ≠ i := fun j hj he => hinr (he ▸ hj)
    have hfr : ∀ j ∈ rest, ∀ b ∈ T.2.1, j ∉ b.items :=
      fun j hj => (tframe j (hjne j hj) (hfree j (List.mem_cons_of_mem _ hj))).1
    have hupr : ∀ j ∈ rest, ∀ it, lookup_item T.1 j = some it → it.is_placed = false := by
      intro j hj it hit
      rw [(tframe j (hjne j hj) (hfree j (List.mem_cons_of_mem _ hj))).2] at hit
      exact hup j (List.mem_cons_of_mem _ hj) it hit
    by_cases htb : T.2.2 = true
    · rw [if_pos htb]
      exact ih T.1 T.2.1 tmid hnd' hfr hupr
    · rw [if_neg htb]
      have htb' : T.2.2 = false := by
        cases hcc : T.2.2
        · rfl
        · exact absurd hcc htb
      obtain ⟨tifree, tilook⟩ := tfalse htb'
      cases hsm : find_bin T.2.1 sid with
      | none =>
        simp only [hsm]
        exact ih T.1 T.2.1 tmid hnd' hfr hupr
      | some sm =>
        cases hli : lookup_item T.1 i with
        | none =>
          simp only [hsm, hli]
          exact ih T.1 T.2.1 tmid hnd' hfr hupr
        | some it =>
          simp only [hsm, hli]
          obtain ⟨hsmm, hsmid⟩ := find_bin_mem hsm
          have hupi : it.is_placed = false := by
            rw [tilook] at hli
            exact hup i (by simp) it hli
          have hfri : free_ids T.2.1 [i] := by
            intro j hj b hb
            have hje : j = i := by simpa using hj
            rw [hje]
            exact tifree b hb
          obtain ⟨amid, aframe, amap, aid⟩ := add_item_state tmid hsmm hli hupi hfri
          have hitid : it.id = i := lookup_item_id hli
          have hadd := add_item_not_mem sm T.1 it (by rw [hitid]; exact tifree sm hsmm)
          have hfr' : ∀ j ∈ rest, ∀ b ∈ set_bin T.2.1 (sm.add_item T.1 it).1, j ∉ b.items := by
            intro j hj b hb
            rcases mem_set_bin hb with hcc | hcc
            · rw [hcc, hadd]
              intro hjm
              have hjm' : j ∈ sm.items ++ [it.id] := hjm
              rcases List.mem_append.mp hjm' with h' | h'
              · exact hfr j hj sm hsmm h'
              · have hje : j = i := by simpa [hitid] using h'
                exact hjne j hj hje
            · exact hfr j hj b hcc
          have hupr' : ∀ j ∈ rest, ∀ it2, lookup_item (sm.add_item T.1 it).2 j = some it2 →
              it2.is_placed = false := by
            intro j hj it2 hit2
            rw [aframe j (hjne j hj)] at hit2
            exact hupr j hj it2 hit2
          exact ih (sm.add_item T.1 it).2 (set_bin T.2.1 (sm.add_item T.1 it).1)
            amid hnd' hfr' hupr'

/-- `consolidate_small_bins` preserves the safety invariants (claim C1,
consolidate case).  Note the put-back path adds only unplaced (reset) items,
which cannot violate overlap or bounds constraints — the divergence it does
cause is in the position/assignment consistency invariant (claim C2), not in
safety. -/
theorem consolidate_safe {s : Solution} (hWF : well_formed s) {out : Solution}
    (hout : consolidate_small_bins s = some out) : solution_safe out := by
  simp only [consolidate_small_bins] at hout
  rw [copy_eq_self hWF] at hout
  by_cases hlen : s.get_used_bins.length < 2
  · rw [if_pos hlen] at hout
    exact absurd hout (by simp)
  rw [if_neg hlen] at hout
  cases hsort : sort_bins_by_util s.all_items s.get_used_bins with
  | nil => exact absurd hout (by simp [hsort])
  | cons smallest tl =>
  simp only [hsort] at hout
  by_cases hutil : smallest.get_volume_utilization s.all_items > 60
  · rw [if_pos hutil] at hout
    exact absurd hout (by simp)
  rw [if_neg hutil] at hout
  cases hgb : s.get_bin_by_id smallest.id with
  | none => exact absurd hout (by simp [hgb])
  | some nsm =>
  simp only [hgb] at hout
  set RES := consolidate_loop smallest.id (s.bins.map Bin.id) nsm.items
    (nsm.clear s.all_items).2 (set_bin s.bins (nsm.clear s.all_items).1) with hRES
  obtain ⟨hsmm, hsmid⟩ := find_bin_mem hgb
  obtain ⟨hmid1, hfree1, hframe1, hmap1, hreset1⟩ :=
    clear_state (well_formed_mid_inv hWF) hsmm
  have hnd_rel : nsm.items.Nodup := hWF.2.2.1 nsm hsmm
  have hup_rel : ∀ j ∈ nsm.items, ∀ it,
      lookup_item (nsm.clear s.all_items).2 j = some it → it.is_placed = false := by
    intro j hj it hit
    rw [hreset1 j hj] at hit
    cases hl : lookup_item s.all_items j with
    | none =>
      rw [hl] at hit
      exact absurd hit (by simp)
    | some it0 =>
      rw [hl] at hit
      have hre : it0.reset = it := by simpa using hit
      rw [← hre]
      rfl
  have hmidL := consolidate_loop_state smallest.id (s.bins.map Bin.id) nsm.items
    (nsm.clear s.all_items).2 (set_bin s.bins (nsm.clear s.all_items).1)
    hmid1 hnd_rel hfree1 hup_rel
  rw [← hRES] at hmidL
  have hfin : solution_safe (⟨s.bin_dimensions, RES.1, RES.2⟩ : Solution) := by
    intro b hb
    exact hmidL.2.2.2.2 b hb
  cases hfs : find_bin RES.2 smallest.id with
  | none => exact absurd hout (by simp [hfs])
  | some fsmall =>
  simp only [hfs] at hout
  by_cases hfe : fsmall.is_empty
  · rw [if_pos hfe] at hout
    injection hout with hout
    subst hout
    exact hfin
  · rw [if_neg hfe] at hout
    by_cases hhalf : (fsmall.items.length : ℚ) < (smallest.items.length : ℚ) * (1 / 2)
    · rw [if_pos hhalf] at hout
      injection hout with hout
      subst hout
      exact hfin
    · rw [if_neg hhalf] at hout
      exact absurd hout (by simp)

/-- **C1**: for every feasible (well-formed) input solution, each
neighborhood operator — `swap_items`, `move_item`, `rebalance_bins`,
`merge_bins_aggressive`, `consolidate_small_bins` — returns either `none` or
a solution in which, for every bin, no two contained placed items overlap
and every placed item's bounds lie within
`[0,length] × [0,width] × [0,height]` of that bin. -/
theorem operator_safety (s : Solution) (hWF : well_formed s) :
    (∀ i1 i2 out, swap_items s i1 i2 = some out → solution_safe out) ∧
    (∀ iid tid out, move_item s iid tid = some out → solution_safe out) ∧
    (∀ b1 b2 out, rebalance_bins s b1 b2 = some out → solution_safe out) ∧
    (∀ b1 b2 out, merge_bins_aggressive s b1 b2 = some out → solution_safe out) ∧
    (∀ out, consolidate_small_bins s = some out → solution_safe out) :=
  ⟨fun i1 i2 _ h => swap_items_safe hWF i1 i2 h,
   fun iid tid _ h => move_item_safe hWF iid tid h,
   fun b1 b2 _ h => rebalance_bins_safe hWF b1 b2 h,
   fun b1 b2 _ h => merge_bins_safe hWF b1 b2 h,
   fun _ h => consolidate_safe hWF h⟩

/-- A concrete two-bin, two-item solution used to witness C1's hypothesis. -/
def demo_item0 : Item :=
  { id := 0, length := 1, width := 1, height := 1, position := some (0, 0, 0),
    rotation := 0, assigned_bin := some 0 }

def demo_item1 : Item :=
  { id := 1, length := 1, width := 1, height := 1, position := some (0, 0, 0),
    rotation := 0, assigned_bin := some 1 }

def demo_solution : Solution :=
  { bin_dimensions := (10, 10, 10),
    all_items := [demo_item0, demo_item1],
    bins := [{ id := 0, length := 10, width := 10, height := 10, items := [0] },
             { id := 1, length := 10, width := 10, height := 10, items := [1] }] }

/-- The demo solution is well-formed (shared by the C1 and C8 witnesses). -/
theorem demo_solution_wf : well_formed demo_solution := by
  refine ⟨by decide, by decide, by decide, by decide, ?_, by decide, by decide, ?_⟩
  · intro it hit bid hbid
    simp only [demo_solution, List.mem_cons, List.not_mem_nil, or_false] at hit
    rcases hit with rfl | rfl
    · have h0 : some (0 : Nat) = some bid := hbid
      injection h0 with h0
      subst h0
      exact ⟨(⟨0, 10, 10, 10, [0]⟩ : Bin), by decide, rfl, by decide⟩
    · have h0 : some (1 : Nat) = some bid := hbid
      injection h0 with h0
      subst h0
      exact ⟨(⟨1, 10, 10, 10, [1]⟩ : Bin), by decide, rfl, by decide⟩
  · intro b hb
    simp only [demo_solution, List.mem_cons, List.not_mem_nil, or_false] at hb
    rcases hb with rfl | rfl
    · exact ⟨by decide, by decide⟩
    · exact ⟨by decide, by decide⟩

/-- Witness for C1: the hypothesis `well_formed` holds of a concrete
solution, and the theorem applies to it. -/
theorem operator_safety_witness :
    well_formed demo_solution ∧
    ((∀ i1 i2 out, swap_items demo_solution i1 i2 = some out → solution_safe out) ∧
     (∀ iid tid out, move_item demo_solution iid tid = some out → solution_safe out) ∧
     (∀ b1 b2 out, rebalance_bins demo_solution b1 b2 = some out → solution_safe out) ∧
     (∀ b1 b2 out, merge_bins_aggressive demo_solution b1 b2 = some out →
        solution_safe out) ∧
     (∀ out, consolidate_small_bins demo_solution = some out → solution_safe out)) :=
  ⟨demo_solution_wf, operator_safety demo_solution demo_solution_wf⟩

/-- The packing loop always splits its pool into `packed ++ unpacked`, a
permutation of the pool, with no other outcome (the loop cannot raise). -/
theorem pack_loop_partition : ∀ (ids : List Nat) (b : Bin) (store : List Item),
    ((pack_loop b store ids).packed ++ (pack_loop b store ids).unpacked).Perm ids := by
  intro ids
  induction ids with
  | nil =>
    intro b store
    simp [pack_loop]
  | cons i rest ih =>
    intro b store
    cases hl : lookup_item store i with
    | none =>
      simp only [pack_loop, hl]
      exact List.perm_middle.trans ((ih b store).cons i)
    | some it =>
      cases hf : find_best_position_for_item b store it with
      | none =>
        simp only [pack_loop, hl, hf]
        exact List.perm_middle.trans ((ih b store).cons i)
      | some q =>
        obtain ⟨x, y, z, rot⟩ := q
        simp only [pack_loop, hl, hf]
        exact (ih _ _).cons i

/-- A store and empty bin exercising C3's amended statement. -/
def c3_store : List Item := [{ id := 0, length := 1, width := 1, height := 1 }]

def c3_bin : Bin := { id := 0, length := 2, width := 2, height := 2, items := [] }

/-- **C3** (amended): `pack_items_in_bin` always returns — this is visible in
its total type — and always returns a pair `(packed, unpacked)` that is a
partition (up to the sort's permutation) of the input list.  The bin's item
collection afterwards is its *prior contents followed by the packed items*
(under duplicate-freeness, disjointness from the bin's prior contents, and
safety of the bin, as at every call site); it therefore contains *exactly*
the packed items only when it starts empty — the original claim fails for a
pre-populated bin (see the counterexample). -/
theorem pack_items_in_bin_partition (b : Bin) (store : List Item) (ids : List Nat)
    (flag : Bool) :
    ((pack_items_in_bin b store ids flag).packed ++
      (pack_items_in_bin b store ids flag).unpacked).Perm ids ∧
    (ids.Nodup → (∀ i ∈ ids, i ∉ b.items) → bin_safe store b →
      (pack_items_in_bin b store ids flag).bin.items =
        b.items ++ (pack_items_in_bin b store ids flag).packed ∧
      (b.items = [] →
        (pack_items_in_bin b store ids flag).bin.items =
          (pack_items_in_bin b store ids flag).packed)) := by
  constructor
  · have hpool : (if flag then sort_desc_volume store ids else ids).Perm ids := by
      cases flag
      · simp
      · simp only [if_pos]
        exact List.perm_insertionSort _ _
    exact (pack_loop_partition _ b store).trans hpool
  · intro hnd hdisj hsafe
    obtain ⟨hbin, h2, h3, h4, h5, h6⟩ := pack_items_in_bin_spec b store ids flag hnd hdisj hsafe
    constructor
    · rw [hbin]
    · intro hbe
      rw [hbin, hbe]
      rfl

/-- Witness for C3 at a concrete empty bin: the partition holds and the bin
ends containing exactly the packed items. -/
theorem pack_items_in_bin_partition_witness :
    ((pack_items_in_bin c3_bin c3_store [0] false).packed ++
      (pack_items_in_bin c3_bin c3_store [0] false).unpacked).Perm [0] ∧
    (pack_items_in_bin c3_bin c3_store [0] false).bin.items =
      (pack_items_in_bin c3_bin c3_store [0] false).packed := by
  have h := pack_items_in_bin_partition c3_bin c3_store [0] false
  exact ⟨h.1, (h.2 (by decide) (by decide) ⟨by decide, by decide⟩).2 (by decide)⟩

/-! ## Claim C8: copy independence (heap model)

Python objects live on a heap and variables hold references.  To state the
aliasing content of `Solution.copy` — fresh objects, and mutation of the
copy never reaching the original — items and bins are placed in an address
→ cell heap with an allocation watermark `next`.  A solution is then a set
of references (`HeapSol`), and `readback` recovers the functional
`Solution` value from the heap.  A bin cell's member list holds item
*addresses*, as a Python `Bin.items` list holds object references. -/

structure HBin where
  id : Nat
  length : ℚ
  width : ℚ
  height : ℚ
  members : List Nat
deriving Repr, DecidableEq

structure Heap where
  items : List (Nat × Item)
  hbins : List (Nat × HBin)
  next : Nat
deriving Repr, DecidableEq

structure HeapSol where
  dims : ℚ × ℚ × ℚ
  item_addrs : List Nat
  bin_addrs : List Nat
deriving Repr, DecidableEq

def Heap.item_at (h : Heap) (a : Nat) : Option Item :=
  (h.items.find? (fun p => p.1 == a)).map (fun p => p.2)

def Heap.bin_at (h : Heap) (a : Nat) : Option HBin :=
  (h.hbins.find? (fun p => p.1 == a)).map (fun p => p.2)

/-- Reading a bin cell back as a functional `Bin`: member references are
dereferenced to the member items' ids. -/
def hbin_to_bin (h : Heap) (hb : HBin) : Bin :=
  { id := hb.id, length := hb.length, width := hb.width, height := hb.height,
    items := hb.members.filterMap (fun ia => (h.item_at ia).map Item.id) }

/-- The functional value of a referenced solution. -/
def readback (h : Heap) (r : HeapSol) : Solution :=
  { bin_dimensions := r.dims,
    all_items := r.item_addrs.filterMap h.item_at,
    bins := r.bin_addrs.filterMap (fun a => (h.bin_at a).map (hbin_to_bin h)) }

/-- Consecutive fresh addresses paired with cells. -/
def with_addrs {α : Type} : Nat → List α → List (Nat × α)
  | _, [] => []
  | base, x :: rest => (base, x) :: with_addrs (base + 1) rest

/-- The address list `[base, base+1, ..., base+n-1]`. -/
def addr_range : Nat → Nat → List Nat
  | _, 0 => []
  | base, n + 1 => base :: addr_range (base + 1) n

/-- Address of the first catalogue entry with a given id, inside a block of
cells allocated at consecutive addresses from `base` (the `item_map` of
`Solution.copy`, resolved against the fresh catalogue). -/
def addr_of_id : Nat → List Item → Nat → Option Nat
  | _, [], _ => none
  | base, it :: rest, i => if it.id == i then some base else addr_of_id (base + 1) rest i

/-- `Solution.copy` on the heap.  The source constructs one fresh `Item` per
catalogue entry (`Item(...)` then field writes), a fresh `Bin` per bin
(`add_bin`), re-establishes membership through `item_map` by item id, and
rewrites the new members' `assigned_bin`; it only *reads* the original's
objects.  The net heap effect is modelled here: the fresh item cells hold
exactly the final item states of the functional `Solution.copy`, the fresh
bin cells hold its bins with members resolved to the fresh item block, and
nothing at an existing address is written. -/
def copy_hbin (base : Nat) (its : List Item) (b : Bin) : HBin :=
  { id := b.id, length := b.length, width := b.width, height := b.height,
    members := b.items.filterMap (addr_of_id base its) }

def heap_copy (h : Heap) (s : Solution) : Heap × HeapSol :=
  let sc := s.copy
  let base := h.next
  let bbase := base + sc.all_items.length
  ({ items := h.items ++ with_addrs base sc.all_items,
     hbins := h.hbins ++ with_addrs bbase (sc.bins.map (copy_hbin base sc.all_items)),
     next := bbase + sc.bins.length },
   { dims := sc.bin_dimensions,
     item_addrs := addr_range base sc.all_items.length,
     bin_addrs := addr_range bbase sc.bins.length })

/-- Sanity of a heap-resident solution: every cell sits below the
allocation watermark, the references point below it, and so do the member
references stored inside bin cells. -/
def well_addressed (h : Heap) (r : HeapSol) : Prop :=
  (∀ p ∈ h.items, p.1 < h.next) ∧
  (∀ p ∈ h.hbins, p.1 < h.next) ∧
  (∀ a ∈ r.item_addrs, a < h.next) ∧
  (∀ a ∈ r.bin_addrs, a < h.next) ∧
  (∀ p ∈ h.hbins, ∀ ia ∈ p.2.members, ia < h.next)

theorem addr_range_ge : ∀ (n base : Nat), ∀ a ∈ addr_range base n, base ≤ a
  | 0, base, a, ha => absurd ha (by simp [addr_range])
  | n + 1, base, a, ha => by
    rw [addr_range] at ha
    rcases List.mem_cons.mp ha with h | h
    · rw [h]
    · exact Nat.le_of_succ_le (addr_range_ge n (base + 1) a h)

theorem with_addrs_key_ge {α : Type} : ∀ (l : List α) (base : Nat),
    ∀ p ∈ with_addrs base l, base ≤ p.1
  | [], base, p, hp => absurd hp (by simp [with_addrs])
  | x :: rest, base, p, hp => by
    rw [with_addrs] at hp
    rcases List.mem_cons.mp hp with h | h
    · rw [h]
    · exact Nat.le_of_succ_le (with_addrs_key_ge rest (base + 1) p h)

theorem find?_append_low {α : Type} : ∀ (pref block : List (Nat × α)) (a base : Nat),
    a < base → (∀ p ∈ block, base ≤ p.1) →
    (pref ++ block).find? (fun p => p.1 == a) = pref.find? (fun p => p.1 == a)
  | [], block, a, base, ha, hblock => by
    rw [List.nil_append]
    have h0 : block.find? (fun p => p.1 == a) = none := by
      rw [List.find?_eq_none]
      intro p hp
      have hge := hblock p hp
      simp only [beq_iff_eq]
      omega
    rw [h0]
    rfl
  | q :: pref, block, a, base, ha, hblock => by
    rw [List.cons_append, List.find?_cons, List.find?_cons]
    cases hq : (q.1 == a)
    · exact find?_append_low pref block a base ha hblock
    · rfl

theorem find?_append_high {α : Type} : ∀ (pref block : List (Nat × α)) (a base : Nat),
    base ≤ a → (∀ p ∈ pref, p.1 < base) →
    (pref ++ block).find? (fun p => p.1 == a) = block.find? (fun p => p.1 == a)
  | [], _, _, _, _, _ => by rw [List.nil_append]
  | q :: pref, block, a, base, ha, hpref => by
    rw [List.cons_append, List.find?_cons]
    have hq : (q.1 == a) = false := by
      have h1 := hpref q (List.mem_cons_self _ _)
      exact beq_eq_false_iff_ne.mpr (by omega)
    rw [hq]
    exact find?_append_high pref block a base ha
      (fun p hp => hpref p (List.mem_cons_of_mem _ hp))

theorem filterMap_ext_mem {α β : Type} : ∀ (l : List α) (f g : α → Option β),
    (∀ a ∈ l, f a = g a) → l.filterMap f = l.filterMap g
  | [], _, _, _ => rfl
  | a :: rest, f, g, h => by
    rw [List.filterMap_cons, List.filterMap_cons, h a (List.mem_cons_self _ _),
      filterMap_ext_mem rest f g (fun b hb => h b (List.mem_cons_of_mem _ hb))]

theorem readback_block {α : Type} : ∀ (l : List α) (pref : List (Nat × α)) (base : Nat),
    (∀ p ∈ pref, p.1 < base) →
    (addr_range base l.length).filterMap
      (fun a => ((pref ++ with_addrs base l).find? (fun p => p.1 == a)).map
        (fun p => p.2)) = l
  | [], pref, base, hlow => by
    simp [addr_range]
  | x :: rest, pref, base, hlow => by
    show (addr_range base (rest.length + 1)).filterMap _ = _
    rw [addr_range, List.filterMap_cons]
    have hhead : ((pref ++ with_addrs base (x :: rest)).find? (fun p => p.1 == base)).map
        (fun p => p.2) = some x := by
      rw [find?_append_high pref _ base base (Nat.le_refl _) hlow]
      rw [with_addrs, List.find?_cons]
      simp
    rw [hhead]
    have htail : ∀ a ∈ addr_range (base + 1) rest.length,
        ((pref ++ with_addrs base (x :: rest)).find? (fun p => p.1 == a)).map
          (fun p => p.2) =
        (((pref ++ [(base, x)]) ++ with_addrs (base + 1) rest).find?
          (fun p => p.1 == a)).map (fun p => p.2) := by
      intro a ha
      rw [with_addrs]
      rw [show pref ++ (base, x) :: with_addrs (base + 1) rest =
        (pref ++ [(base, x)]) ++ with_addrs (base + 1) rest by simp]
    rw [filterMap_ext_mem _ _ _ htail]
    rw [readback_block rest (pref ++ [(base, x)]) (base + 1) ?_]
    intro p hp
    rcases List.mem_append.mp hp with h' | h'
    · exact Nat.lt_succ_of_lt (hlow p h')
    · have : p = (base, x) := by simpa using h'
      rw [this]
      exact Nat.lt_succ_self _

theorem addr_of_id_spec : ∀ (l : List Item) (base i a : Nat),
    addr_of_id base l i = some a →
    base ≤ a ∧ ∃ it, (with_addrs base l).find? (fun p => p.1 == a) = some (a, it) ∧
      it.id = i
  | [], base, i, a, h => absurd h (by simp [addr_of_id])
  | it :: rest, base, i, a, h => by
    rw [addr_of_id] at h
    by_cases hid : (it.id == i) = true
    · rw [if_pos hid] at h
      injection h with h
      subst h
      refine ⟨Nat.le_refl _, it, ?_, by simpa using hid⟩
      rw [with_addrs, List.find?_cons]
      simp
    · rw [if_neg hid] at h
      obtain ⟨hge, it2, hfind, hid2⟩ := addr_of_id_spec rest (base + 1) i a h
      refine ⟨Nat.le_of_succ_le hge, it2, ?_, hid2⟩
      rw [with_addrs, List.find?_cons]
      have hne : ((base, it).1 == a) = false := by
        show (base == a) = false
        exact beq_eq_false_iff_ne.mpr (by omega)
      rw [hne]
      exact hfind

theorem addr_of_id_isSome : ∀ (l : List Item) (base i : Nat),
    (lookup_item l i).isSome = true → (addr_of_id base l i).isSome = true
  | [], _, _, h => by simp [lookup_item] at h
  | it :: rest, base, i, h => by
    rw [addr_of_id]
    rw [lookup_item, List.find?_cons] at h
    cases hid : (it.id == i)
    · rw [if_neg (by simp [hid])]
      rw [hid] at h
      exact addr_of_id_isSome rest (base + 1) i h
    · rw [if_pos (by simp [hid])]
      rfl

theorem members_roundtrip (h2 : Heap) (base : Nat) (l : List Item)
    (hfind : ∀ (a : Nat) (it : Item),
      (with_addrs base l).find? (fun p => p.1 == a) = some (a, it) →
      h2.item_at a = some it) :
    ∀ ids : List Nat, (∀ i ∈ ids, (lookup_item l i).isSome = true) →
      (ids.filterMap (addr_of_id base l)).filterMap
        (fun ia => (h2.item_at ia).map Item.id) = ids := by
  intro ids
  induction ids with
  | nil => intro _; rfl
  | cons i rest ih =>
    intro hres
    obtain ⟨a, ha⟩ := Option.isSome_iff_exists.mp
      (addr_of_id_isSome l base i (hres i (List.mem_cons_self _ _)))
    obtain ⟨hge, it, hfind2, hid⟩ := addr_of_id_spec l base i a ha
    have hitem := hfind a it hfind2
    simp only [List.filterMap_cons, ha, hitem, Option.map_some']
    rw [hid, ih (fun j hj => hres j (List.mem_cons_of_mem _ hj))]

/-- Reading a solution back depends only on the heap below the watermark:
any heap agreeing there (in particular, one produced by mutating freshly
allocated objects only) yields the same functional value. -/
theorem readback_frame (h h2 : Heap) (r : HeapSol) (hwa : well_addressed h r)
    (hi : ∀ a, a < h.next → h2.item_at a = h.item_at a)
    (hb : ∀ a, a < h.next → h2.bin_at a = h.bin_at a) :
    readback h2 r = readback h r := by
  obtain ⟨hwi, hwb, hri, hrb, hmem⟩ := hwa
  have h1 : r.item_addrs.filterMap h2.item_at = r.item_addrs.filterMap h.item_at :=
    filterMap_ext_mem _ _ _ (fun a ha => hi a (hri a ha))
  have h2b : r.bin_addrs.filterMap (fun a => (h2.bin_at a).map (hbin_to_bin h2)) =
      r.bin_addrs.filterMap (fun a => (h.bin_at a).map (hbin_to_bin h)) := by
    apply filterMap_ext_mem
    intro a ha
    rw [hb a (hrb a ha)]
    cases hba : h.bin_at a with
    | none => rfl
    | some hbn =>
      have hpair : ∃ p ∈ h.hbins, p.2 = hbn := by
        unfold Heap.bin_at at hba
        cases hf : h.hbins.find? (fun p => p.1 == a) with
        | none => rw [hf] at hba; exact absurd hba (by simp)
        | some p =>
          rw [hf] at hba
          exact ⟨p, List.mem_of_find?_eq_some hf, by simpa using hba⟩
      obtain ⟨p, hpm, hp2⟩ := hpair
      have hmems : ∀ ia ∈ hbn.members, ia < h.next := by
        intro ia hia
        exact hmem p hpm ia (by rw [hp2]; exact hia)
      have hmembers : hbn.members.filterMap (fun ia => (h2.item_at ia).map Item.id) =
          hbn.members.filterMap (fun ia => (h.item_at ia).map Item.id) :=
        filterMap_ext_mem _ _ _ (fun ia hia => by rw [hi ia (hmems ia hia)])
      rw [Option.map_some', Option.map_some']
      unfold hbin_to_bin
      rw [hmembers]
  unfold readback
  rw [h1, h2b]

/-- The copy writes nothing at an existing address: the original reads back
unchanged from the extended heap. -/
theorem heap_copy_preserves (h : Heap) (s : Solution) (r : HeapSol)
    (hwa : well_addressed h r) :
    readback (heap_copy h s).1 r = readback h r := by
  apply readback_frame h _ r hwa
  · intro a ha
    show ((h.items ++ with_addrs h.next s.copy.all_items).find?
      (fun p => p.1 == a)).map (fun p => p.2) = h.item_at a
    rw [find?_append_low _ _ a h.next ha (with_addrs_key_ge _ _)]
    rfl
  · intro a ha
    show ((h.hbins ++ with_addrs (h.next + s.copy.all_items.length)
        (s.copy.bins.map (copy_hbin h.next s.copy.all_items))).find?
      (fun p => p.1 == a)).map (fun p => p.2) = h.bin_at a
    rw [find?_append_low _ _ a h.next ha
      (fun p hp => Nat.le_trans (Nat.le_add_right _ _) (with_addrs_key_ge _ _ p hp))]
    rfl

/-- The copy's objects are all freshly allocated (at or above the
watermark), hence disjoint from every object of the original. -/
theorem heap_copy_fresh (h : Heap) (s : Solution) :
    ∀ a ∈ (heap_copy h s).2.item_addrs ++ (heap_copy h s).2.bin_addrs, h.next ≤ a := by
  intro a ha
  rcases List.mem_append.mp ha with h' | h'
  · exact addr_range_ge _ _ a h'
  · exact Nat.le_trans (Nat.le_add_right _ _) (addr_range_ge _ _ a h')

/-- The heap copy reads back as exactly the functional `Solution.copy`. -/
theorem heap_copy_readback (h : Heap) (s : Solution)
    (hlowi : ∀ p ∈ h.items, p.1 < h.next) (hlowb : ∀ p ∈ h.hbins, p.1 < h.next)
    (hres : ∀ b ∈ s.copy.bins, ∀ i ∈ b.items,
      (lookup_item s.copy.all_items i).isSome = true) :
    readback (heap_copy h s).1 (heap_copy h s).2 = s.copy := by
  have hitems : (heap_copy h s).2.item_addrs.filterMap (heap_copy h s).1.item_at =
      s.copy.all_items :=
    readback_block s.copy.all_items h.items h.next hlowi
  have hfind : ∀ (a : Nat) (it : Item),
      (with_addrs h.next s.copy.all_items).find? (fun p => p.1 == a) = some (a, it) →
      (heap_copy h s).1.item_at a = some it := by
    intro a it hf
    have hge : h.next ≤ a :=
      with_addrs_key_ge s.copy.all_items h.next (a, it) (List.mem_of_find?_eq_some hf)
    show ((h.items ++ with_addrs h.next s.copy.all_items).find?
      (fun p => p.1 == a)).map (fun p => p.2) = some it
    rw [find?_append_high h.items _ a h.next hge hlowi, hf]
    rfl
  have hpt : ∀ b ∈ s.copy.bins,
      hbin_to_bin (heap_copy h s).1 (copy_hbin h.next s.copy.all_items b) = b := by
    intro b hbm
    have hmem : (b.items.filterMap (addr_of_id h.next s.copy.all_items)).filterMap
        (fun ia => ((heap_copy h s).1.item_at ia).map Item.id) = b.items :=
      members_roundtrip (heap_copy h s).1 h.next s.copy.all_items hfind b.items
        (hres b hbm)
    show ((⟨b.id, b.length, b.width, b.height,
      (b.items.filterMap (addr_of_id h.next s.copy.all_items)).filterMap
        (fun ia => ((heap_copy h s).1.item_at ia).map Item.id)⟩ : Bin) = b)
    rw [hmem]
  have hlowb2 : ∀ p ∈ h.hbins, p.1 < h.next + s.copy.all_items.length :=
    fun p hp => Nat.lt_of_lt_of_le (hlowb p hp) (Nat.le_add_right _ _)
  have hblk2 := readback_block (s.copy.bins.map (copy_hbin h.next s.copy.all_items))
    h.hbins (h.next + s.copy.all_items.length) hlowb2
  rw [List.length_map] at hblk2
  have hbins : (heap_copy h s).2.bin_addrs.filterMap
      (fun a => ((heap_copy h s).1.bin_at a).map (hbin_to_bin (heap_copy h s).1)) =
      s.copy.bins := by
    have hcomp : (heap_copy h s).2.bin_addrs.filterMap
        (fun a => ((heap_copy h s).1.bin_at a).map (hbin_to_bin (heap_copy h s).1)) =
        ((heap_copy h s).2.bin_addrs.filterMap (heap_copy h s).1.bin_at).map
          (hbin_to_bin (heap_copy h s).1) :=
      (List.map_filterMap _ _ _).symm
    rw [hcomp]
    have hraw : (heap_copy h s).2.bin_addrs.filterMap (heap_copy h s).1.bin_at =
        s.copy.bins.map (copy_hbin h.next s.copy.all_items) :=
      hblk2
    rw [hraw, List.map_map]
    have hcongr : s.copy.bins.map
        (hbin_to_bin (heap_copy h s).1 ∘ copy_hbin h.next s.copy.all_items) =
        s.copy.bins.map id :=
      List.map_congr_left (fun b hb => hpt b hb)
    rw [hcongr, List.map_id]
  show ((⟨(heap_copy h s).2.dims,
    (heap_copy h s).2.item_addrs.filterMap (heap_copy h s).1.item_at,
    (heap_copy h s).2.bin_addrs.filterMap
      (fun a => ((heap_copy h s).1.bin_at a).map
        (hbin_to_bin (heap_copy h s).1))⟩ : Solution) = s.copy)
  rw [hitems, hbins]
  show ((⟨s.copy.bin_dimensions, s.copy.all_items, s.copy.bins⟩ : Solution) = s.copy)
  rfl

/-- The demo solution laid out on a heap: item cells at addresses 0 and 1,
bin cells at 2 and 3 (whose member lists hold the item *addresses*), and
allocation watermark 4. -/
def demo_heap : Heap :=
  { items := [(0, demo_item0), (1, demo_item1)],
    hbins := [(2, { id := 0, length := 10, width := 10, height := 10, members := [0] }),
              (3, { id := 1, length := 10, width := 10, height := 10, members := [1] })],
    next := 4 }

def demo_ref : HeapSol :=
  { dims := (10, 10, 10), item_addrs := [0, 1], bin_addrs := [2, 3] }

/-- **C8**: `Solution.copy` returns newly constructed objects — every
address of the copy lies at or above the allocation watermark, disjoint
from all of the original's objects; the copy reads back with geometric
state identical to the original (positions, rotations, assignments, bin
contents); constructing it leaves the original's readback unchanged; and
any later heap that agrees below the watermark — in particular one reached
by mutating only the copy's fresh objects, which is all an operator does to
its working copy — still reads the original back unchanged.  Consequently
the operators never mutate their input solution. -/
theorem copy_independence (h : Heap) (r : HeapSol)
    (hwa : well_addressed h r) (hWF : well_formed (readback h r)) :
    (∀ a ∈ (heap_copy h (readback h r)).2.item_addrs ++
        (heap_copy h (readback h r)).2.bin_addrs, h.next ≤ a) ∧
    readback (heap_copy h (readback h r)).1 (heap_copy h (readback h r)).2 =
      readback h r ∧
    readback (heap_copy h (readback h r)).1 r = readback h r ∧
    (∀ h2 : Heap, (∀ a, a < h.next → h2.item_at a = h.item_at a) →
      (∀ a, a < h.next → h2.bin_at a = h.bin_at a) →
      readback h2 r = readback h r) := by
  have hcopy := copy_eq_self hWF
  have hres : ∀ b ∈ (readback h r).copy.bins, ∀ i ∈ b.items,
      (lookup_item (readback h r).copy.all_items i).isSome = true := by
    rw [hcopy]
    exact fun b hb i hi => hWF.2.2.2.1 b hb i hi
  refine ⟨heap_copy_fresh h _, ?_, heap_copy_preserves h _ r hwa,
    fun h2 hi hb => readback_frame h h2 r hwa hi hb⟩
  rw [heap_copy_readback h (readback h r) hwa.1 hwa.2.1 hres, hcopy]

/-- Witness for C8 at the concrete heap-resident demo solution. -/
theorem copy_independence_witness :
    well_addressed demo_heap demo_ref ∧ well_formed (readback demo_heap demo_ref) ∧
    ((∀ a ∈ (heap_copy demo_heap (readback demo_heap demo_ref)).2.item_addrs ++
        (heap_copy demo_heap (readback demo_heap demo_ref)).2.bin_addrs,
        demo_heap.next ≤ a) ∧
     readback (heap_copy demo_heap (readback demo_heap demo_ref)).1
        (heap_copy demo_heap (readback demo_heap demo_ref)).2 =
        readback demo_heap demo_ref ∧
     readback (heap_copy demo_heap (readback demo_heap demo_ref)).1 demo_ref =
        readback demo_heap demo_ref ∧
     (∀ h2 : Heap, (∀ a, a < demo_heap.next → h2.item_at a = demo_heap.item_at a) →
       (∀ a, a < demo_heap.next → h2.bin_at a = demo_heap.bin_at a) →
       readback h2 demo_ref = readback demo_heap demo_ref)) := by
  have hwa : well_addressed demo_heap demo_ref :=
    ⟨by decide, by decide, by decide, by decide, by decide⟩
  have hwf : well_formed (readback demo_heap demo_ref) := by
    have hr : readback demo_heap demo_ref = demo_solution := by rfl
    rw [hr]
    exact demo_solution_wf
  exact ⟨hwa, hwf, copy_independence demo_heap demo_ref hwa hwf⟩
